import Mathlib

/-!
# sdns: in-memory answer cache and failover response writer

A shallow embedding of `memory_cache.go` and `middleware/failover/failover.go`.

Modelling conventions.

* The Go map `Backend map[string]*Mesg` is an association list with unique keys
  (`AList`); `len`, lookup, assignment and `delete` are `keys.length`, `lookup`,
  `insert` and `erase`.  A field update through the `*Mesg` pointer is `replace`.
* A `*dns.Msg` is an `Option Msg` (`none` is the nil pointer).  Messages are values:
  every stored message is taken to be owned by its entry, so no record object is
  shared between two entries or between two positions of one answer section.
* `time.Time` and `time.Duration` are integers counting nanoseconds.  The reading of
  `WallClock.Now()` is an explicit argument `wall` of every operation that reads the
  clock.
* `uint32` values are natural numbers; the arithmetic on them is written with an
  explicit `% 2^32`.
* Keys are ASCII strings, as DNS names in presentation format are; on them
  `strings.ToLower` maps `A`..`Z` to `a`..`z` and leaves every other character.
* The locks are not modelled: every operation is run as one sequential step.  Only
  the section on concurrent `Set`s splits `Set` at the point where it holds no lock,
  between its test and its store, and lets the steps of several units alternate.
* `net.SplitHostPort` is written out; `net.ParseIP` is an argument of `New`, a
  function from the host text to the bytes of the address (`none` is nil).
-/

namespace Sdns

/-! ## DNS messages (the part of `github.com/miekg/dns` the code touches) -/

/-- Header shared by all resource records (`dns.RR_Header`); `Ttl` is a `uint32`. -/
structure RR_Header where
  Name : String
  Rrtype : Nat
  Class : Nat
  Ttl : Nat
  Rdlength : Nat
deriving DecidableEq, Repr

/-- Resource record: its header and its (uninterpreted) data. -/
structure RR where
  Hdr : RR_Header
  Rdata : String
deriving DecidableEq, Repr

/-- Entry of the question section (`dns.Question`). -/
structure Question where
  Name : String
  Qtype : Nat
  Qclass : Nat
deriving DecidableEq, Repr

/-- DNS message (`dns.Msg`): the header fields followed by the four sections. -/
structure Msg where
  Id : Nat
  Response : Bool
  Opcode : Int
  Authoritative : Bool
  Truncated : Bool
  RecursionDesired : Bool
  RecursionAvailable : Bool
  Zero : Bool
  AuthenticatedData : Bool
  CheckingDisabled : Bool
  Rcode : Int
  Question : List Question
  Answer : List RR
  Ns : List RR
  Extra : List RR
deriving DecidableEq, Repr

/-- Response code "server failure" (`dns.RcodeServerFailure`). -/
def RcodeServerFailure : Int := 2

/-- Every TTL of the answer section is a `uint32` value. -/
def Msg.wf (m : Msg) : Prop := ∀ rr ∈ m.Answer, rr.Hdr.Ttl < 4294967296

instance (m : Msg) : Decidable m.wf := by
  unfold Msg.wf; infer_instance

/-! ## Time -/

/-! An instant (`time.Time`) and a duration (`time.Duration`, an `int64`) are both an
`Int` that counts nanoseconds. -/

/-- One second as a duration (`time.Second`). -/
def Second : Int := 1000000000

/-- Largest duration, `1<<63 - 1`. -/
def maxDuration : Int := 9223372036854775807

/-- Smallest duration, `-1 << 63`. -/
def minDuration : Int := -9223372036854775808

/-- Rounding down to a multiple of `d` (`Time.Truncate`); `d <= 0` returns `t`. -/
def Time.Truncate (t : Int) (d : Int) : Int :=
  if d ≤ 0 then t else t - t % d

/-- Difference `t - u`, saturated to the range of a duration (`Time.Sub`). -/
def Time.Sub (t u : Int) : Int :=
  if t - u > maxDuration then maxDuration
  else if t - u < minDuration then minDuration
  else t - u

/-- Whole part of `Duration.Seconds`: the quotient by one second, rounded towards
zero.  `Seconds` returns the float `sec + nsec/1e9`; the conversion to `uint32`
that follows it in the source discards the fraction.  The two agree on every
difference of second-truncated instants, which is all a cache entry ever holds. -/
def Duration.Seconds (d : Int) : Int := Int.tdiv d Second

/-- Conversion to `uint32`.  Inside `0 .. 2^32 - 1` it is the identity; outside, Go
leaves the result to the implementation, and this is the two-complement truncation
of amd64. -/
def toUint32 (x : Int) : Nat := (x % 4294967296).toNat

/-- Subtraction of `uint32` values, `a - b` modulo `2^32`. -/
def subU32 (a b : Nat) : Nat := (a + 4294967296 - b % 4294967296) % 4294967296

/-- The `now` of `Get`, `Set` and the sweep: `WallClock.Now().Truncate(time.Second)`. -/
def nowTruncated (wall : Int) : Int := Time.Truncate wall Second

/-- The `elapsed` of `Get` and the sweep:
`uint32(now.Sub(mesg.LastUpdateTime).Seconds())`. -/
def elapsedSince (now last : Int) : Nat :=
  toUint32 (Duration.Seconds (Time.Sub now last))

/-! ## Keys -/

/-- Lower-casing of a key (`strings.ToLower` on an ASCII string), character by
character: `A`..`Z` go to `a`..`z`, the rest stays. -/
def toLower (s : String) : String := String.mk (s.data.map Char.toLower)

/-- Two characters are the same letter up to case: equal, or one is an upper-case
ASCII letter and the other is 32 code points above it. -/
def sameLetter (a b : Char) : Prop :=
  a = b ∨ (65 ≤ a.toNat ∧ a.toNat ≤ 90 ∧ b.toNat = a.toNat + 32)
    ∨ (65 ≤ b.toNat ∧ b.toNat ≤ 90 ∧ a.toNat = b.toNat + 32)

instance (a b : Char) : Decidable (sameLetter a b) := by
  unfold sameLetter; infer_instance

/-- Two keys differ only by letter case: same length, same letter at each position. -/
def differOnlyByCase (k k' : String) : Prop :=
  k.data.length = k'.data.length ∧ ∀ p ∈ List.zip k.data k'.data, sameLetter p.1 p.2

instance (k k' : String) : Decidable (differOnlyByCase k k') := by
  unfold differOnlyByCase; infer_instance

/-! ## The cache -/

/-- Errors of the cache (`KeyNotFound`, `KeyExpired`, `CacheIsFull`,
`SerializerError`). -/
inductive CacheError where
  | KeyNotFound (key : String)
  | KeyExpired (Key : String)
  | CacheIsFull
  | SerializerError
deriving DecidableEq, Repr

/-- Cache entry (`Mesg`). -/
structure Mesg where
  Msg : Option Msg
  LastUpdateTime : Int
deriving DecidableEq, Repr

/-- The cache (`MemoryCache`); `Maxcount` is a Go `int`. -/
structure MemoryCache where
  Backend : AList (fun _ : String => Mesg)
  Maxcount : Int
deriving DecidableEq

/-- Constructor `NewMemoryCache`: an empty map and the given bound. -/
def NewMemoryCache (maxcount : Int) : MemoryCache :=
  { Backend := ∅, Maxcount := maxcount }

/-- Method `Length`: `len(c.Backend)`. -/
def MemoryCache.Length (c : MemoryCache) : Int := c.Backend.keys.length

/-- Method `Full`. -/
def MemoryCache.Full (c : MemoryCache) : Bool :=
  if c.Maxcount = 0 then false else decide (c.Length ≥ c.Maxcount)

/-- Method `Exists`. -/
def MemoryCache.Exists (c : MemoryCache) (key : String) : Bool :=
  (c.Backend.lookup (toLower key)).isSome

/-- Method `Remove`. -/
def MemoryCache.Remove (c : MemoryCache) (key : String) : MemoryCache :=
  { c with Backend := c.Backend.erase (toLower key) }

/-- Method `Set`: the new store and the returned error (`none` is the nil error). -/
def MemoryCache.Set (c : MemoryCache) (wall : Int) (key : String) (msg : Option Msg) :
    MemoryCache × Option CacheError :=
  let key := toLower key
  if c.Full && !c.Exists key then (c, some CacheError.CacheIsFull)
  else
    let mesg : Mesg := { Msg := msg, LastUpdateTime := nowTruncated wall }
    ({ c with Backend := c.Backend.insert key mesg }, none)

/-- The loop of `Get` over the answer records: `none` when some record has
`elapsed > Ttl` (the entry expires), otherwise the records with
`Ttl -= elapsed` applied to each. -/
def ageAnswers (elapsed : Nat) : List RR → Option (List RR)
  | [] => some []
  | rr :: rest =>
    if elapsed > rr.Hdr.Ttl then none
    else
      match ageAnswers elapsed rest with
      | none => none
      | some aged =>
        some ({ rr with Hdr := { rr.Hdr with Ttl := subU32 rr.Hdr.Ttl elapsed } } :: aged)

/-- Method `Get`: the new store, the returned message (`none` is nil) and the
returned error (`none` is nil). -/
def MemoryCache.Get (c : MemoryCache) (wall : Int) (key : String) :
    MemoryCache × Option Msg × Option CacheError :=
  let key := toLower key
  match c.Backend.lookup key with
  | none => (c, none, some (CacheError.KeyNotFound key))
  | some mesg =>
    match mesg.Msg with
    | none => (c.Remove key, none, some (CacheError.KeyNotFound key))
    | some msg =>
      let now := nowTruncated wall
      let elapsed := elapsedSince now mesg.LastUpdateTime
      match ageAnswers elapsed msg.Answer with
      | none => (c.Remove key, none, some (CacheError.KeyExpired key))
      | some aged =>
        let msg1 : Msg := { msg with Answer := aged }
        ({ c with Backend := c.Backend.replace key { Msg := some msg1, LastUpdateTime := now } },
          some msg1, none)

/-- One iteration of the sweep loop of `run` on the entry `(key, mesg)`: `none` is
the nil-pointer dereference of `mesg.Msg.Answer`, which ends the process. -/
def runEntry (wall : Int) (b : AList (fun _ : String => Mesg)) (key : String) (mesg : Mesg) :
    Option (AList (fun _ : String => Mesg)) :=
  let b1 := if mesg.Msg.isNone then b.erase key else b
  match mesg.Msg with
  | none => none
  | some msg =>
    let elapsed := elapsedSince (nowTruncated wall) mesg.LastUpdateTime
    if msg.Answer.any (fun answer => decide (elapsed > answer.Hdr.Ttl)) then some (b1.erase key)
    else some b1

/-- The visits of one sweep over the listed entries, in order. -/
def runEntries (wall : Int) :
    List (Sigma (fun _ : String => Mesg)) → AList (fun _ : String => Mesg) →
      Option (AList (fun _ : String => Mesg))
  | [], b => some b
  | e :: rest, b =>
    match runEntry wall b e.1 e.2 with
    | none => none
    | some b1 => runEntries wall rest b1

/-- One tick of `run`: the sweep visits every entry of the map. -/
def MemoryCache.runTick (c : MemoryCache) (wall : Int) : Option MemoryCache :=
  match runEntries wall c.Backend.entries c.Backend with
  | none => none
  | some b => some { c with Backend := b }

/-- Operations of the cache, each with the clock reading it sees. -/
inductive Op where
  | Set (wall : Int) (key : String) (msg : Option Msg)
  | Get (wall : Int) (key : String)
  | Remove (key : String)
  | Exists (key : String)
  | Length
  | Sweep (wall : Int)
deriving DecidableEq

/-- State after one operation; `none` when the process has ended. -/
def MemoryCache.step (c : MemoryCache) : Op → Option MemoryCache
  | Op.Set wall key msg => some (c.Set wall key msg).1
  | Op.Get wall key => some (c.Get wall key).1
  | Op.Remove key => some (c.Remove key)
  | Op.Exists _ => some c
  | Op.Length => some c
  | Op.Sweep wall => c.runTick wall

/-- State after a sequence of operations run one after the other. -/
def MemoryCache.steps (c : MemoryCache) : List Op → Option MemoryCache
  | [] => some c
  | op :: ops =>
    match c.step op with
    | none => none
    | some c1 => c1.steps ops

/-! ## Scenarios over the cache -/

/-- The operation reads or writes the entry of `key`; a sweep visits every entry. -/
def Op.touches (key : String) : Op → Bool
  | Op.Set _ k _ => decide (toLower k = toLower key)
  | Op.Get _ k => decide (toLower k = toLower key)
  | Op.Remove k => decide (toLower k = toLower key)
  | Op.Exists k => decide (toLower k = toLower key)
  | Op.Length => false
  | Op.Sweep _ => true

/-- The operation is a `Get` called with exactly `key`. -/
def Op.isGetOn (key : String) : Op → Bool
  | Op.Get _ k => decide (k = key)
  | _ => false

/-- Clock readings of the `Get`s on `key` among the operations, in order. -/
def getWalls (key : String) : List Op → List Int
  | [] => []
  | Op.Get wall k :: ops => if k = key then wall :: getWalls key ops else getWalls key ops
  | _ :: ops => getWalls key ops

/-- What the `Get`s on `key` return, in order, when the operations are run one after
the other from `c`. -/
def MemoryCache.getResults (c : MemoryCache) (key : String) :
    List Op → List (Option Msg × Option CacheError)
  | [] => []
  | Op.Get wall k :: ops =>
    if k = key then (c.Get wall k).2 :: (c.Get wall k).1.getResults key ops
    else (c.Get wall k).1.getResults key ops
  | op :: ops =>
    match c.step op with
    | none => []
    | some c1 => c1.getResults key ops

/-- The instants `t <= x_1 <= x_2 <= ...` do not decrease. -/
def nonDecreasingFrom : Int → List Int → Prop
  | _, [] => True
  | t, x :: xs => t ≤ x ∧ nonDecreasingFrom x xs

instance decNonDecreasingFrom : (t : Int) → (l : List Int) → Decidable (nonDecreasingFrom t l)
  | _, [] => inferInstanceAs (Decidable True)
  | _, x :: xs => @instDecidableAnd _ _ _ (decNonDecreasingFrom x xs)

/-- The message with `e` taken off the TTL of every answer record. -/
def Msg.aged (m : Msg) (e : Nat) : Msg :=
  let older : RR → RR := fun rr => { rr with Hdr := { rr.Hdr with Ttl := rr.Hdr.Ttl - e } }
  { m with Answer := m.Answer.map older }

/-- Whole seconds from the truncated instant of `wall0` to that of `wall`. -/
def secondsBetween (wall0 wall : Int) : Int :=
  (nowTruncated wall - nowTruncated wall0) / Second

/-- A run of `Set`s, one per `(wall, key, msg)`: the final store and the error each
`Set` returned. -/
def MemoryCache.Sets (c : MemoryCache) :
    List (Int × String × Option Msg) → MemoryCache × List (Option CacheError)
  | [] => (c, [])
  | (wall, key, msg) :: rest =>
    let r := c.Set wall key msg
    let rs := r.1.Sets rest
    (rs.1, r.2 :: rs.2)

/-- An address record for `example.com.` with the given TTL. -/
def exampleRR (ttl : Nat) : RR :=
  { Hdr := { Name := "example.com.", Rrtype := 1, Class := 1, Ttl := ttl, Rdlength := 4 },
    Rdata := "192.0.2.1" }

/-- A response for `example.com.` whose answer records have the given TTLs, with
the given response code. -/
def exampleMsg (rcode : Int) (ttls : List Nat) : Msg :=
  { Id := 4660, Response := true, Opcode := 0, Authoritative := false, Truncated := false,
    RecursionDesired := true, RecursionAvailable := true, Zero := false,
    AuthenticatedData := false, CheckingDisabled := false, Rcode := rcode,
    Question := [{ Name := "example.com.", Qtype := 1, Qclass := 1 }],
    Answer := ttls.map exampleRR, Ns := [], Extra := [] }

/-- A cache of at most one entry that holds `a.` with TTL 59, last read at 1 s. -/
def exampleStore : MemoryCache :=
  { Backend := AList.singleton "a."
      { Msg := some (exampleMsg 0 [59]), LastUpdateTime := 1000000000 }
    Maxcount := 1 }

/-! ## The failover writer -/

/-- Handler state (`Failover`): the fallback servers, in configured order. -/
structure Failover where
  servers : List String

/-- The wrapper (`ResponseWriter`): `Inner` is `WriteMsg` of the embedded
`ctx.ResponseWriter` (its returned error, `none` for nil), `f` the handler. -/
structure ResponseWriter where
  Inner : Msg → Option String
  f : Failover

/-- What `WriteMsg` draws from outside the repository: the identifier `dns.Id()`
hands out, the constant `dnsutil.DefaultMsgSize`, and `dns.Exchange`, whose
outcome on the `n`-th exchange of the call is `Exchange n req server`. -/
structure Env where
  freshId : Nat
  DefaultMsgSize : Nat
  Exchange : Nat → Msg → String → Except String Msg

/-- What `WriteMsg` does to the outside, in order. -/
inductive Event where
  | Exchange (req : Msg) (server : String)
  | Write (m : Msg)
  | Release
deriving DecidableEq, Repr

/-- The zero message, `new(dns.Msg)`. -/
def newMsg : Msg :=
  { Id := 0, Response := false, Opcode := 0, Authoritative := false, Truncated := false,
    RecursionDesired := false, RecursionAvailable := false, Zero := false,
    AuthenticatedData := false, CheckingDisabled := false, Rcode := 0,
    Question := [], Answer := [], Ns := [], Extra := [] }

/-- Library method `SetQuestion`: a fresh identifier, recursion desired, and the one
question `(z, t, ClassINET)`. -/
def Msg.SetQuestion (m : Msg) (id : Nat) (z : String) (t : Nat) : Msg :=
  { m with Id := id, RecursionDesired := true,
           Question := [{ Name := z, Qtype := t, Qclass := 1 }] }

/-- Library method `SetEdns0`: appends an OPT record carrying the UDP size in its
class field and, when `d` is set, the DO bit in its TTL field. -/
def Msg.SetEdns0 (m : Msg) (udpsize : Nat) (d : Bool) : Msg :=
  { m with Extra := m.Extra ++
      [{ Hdr := { Name := ".", Rrtype := 41, Class := udpsize,
                  Ttl := if d then 32768 else 0, Rdlength := 0 },
         Rdata := "" }] }

/-- The retry query `req` that `WriteMsg` builds from the question `q` of `m`. -/
def retryRequest (env : Env) (m : Msg) (q : Question) : Msg :=
  let req := (newMsg.SetQuestion env.freshId q.Name q.Qtype).SetEdns0 env.DefaultMsgSize true
  { req with RecursionDesired := true, CheckingDisabled := m.CheckingDisabled }

/-- The loop of `WriteMsg` over the servers still to try, `n` exchanges having been
made: the events and the returned error. -/
def exchangeLoop (env : Env) (w : ResponseWriter) (m req : Msg) :
    Nat → List String → List Event × Option String
  | _, [] => ([Event.Write m], w.Inner m)
  | n, server :: rest =>
    match env.Exchange n req server with
    | Except.error _ =>
      let r := exchangeLoop env w m req (n + 1) rest
      (Event.Exchange req server :: r.1, r.2)
    | Except.ok resp =>
      let resp1 : Msg := { resp with Id := m.Id }
      ([Event.Exchange req server, Event.Write resp1], w.Inner resp1)

/-- Method `WriteMsg` of the wrapper: the events, ending with the deferred
`ReleaseWriter`, and the returned error. -/
def ResponseWriter.WriteMsg (env : Env) (w : ResponseWriter) (m : Msg) :
    List Event × Option String :=
  let r : List Event × Option String :=
    if m.Question.length = 0 ∨ w.f.servers.length = 0 then ([Event.Write m], w.Inner m)
    else if m.Rcode ≠ RcodeServerFailure ∨ m.RecursionDesired = false then
      ([Event.Write m], w.Inner m)
    else
      match m.Question with
      | [] => ([Event.Write m], w.Inner m)
      | q :: _ => exchangeLoop env w m (retryRequest env m q) 0 w.f.servers
  (r.1 ++ [Event.Release], r.2)

/-- A network in which only the server `192.0.2.53:53` answers, with a response of
identifier 999 and one record of TTL 300. -/
def exampleEnv : Env :=
  { freshId := 31337
    DefaultMsgSize := 1232
    Exchange := fun _ _ server =>
      if server = "192.0.2.53:53" then Except.ok { exampleMsg 0 [300] with Id := 999 }
      else Except.error "i/o timeout" }

/-- A wrapper over a writer that returns no error, with the given fallback servers. -/
def exampleWriter (servers : List String) : ResponseWriter :=
  { Inner := fun _ => none, f := { servers := servers } }

/-! ## Scenarios over the sweep -/

/-- The test of the sweep on one entry: some answer record has `elapsed > Ttl`, the
elapsed seconds counted from the entry's `LastUpdateTime` to the truncated reading
of the clock; an entry with a nil payload has no record to test. -/
def expiredAt (wall : Int) (mesg : Mesg) : Bool :=
  match mesg.Msg with
  | none => false
  | some msg =>
    msg.Answer.any
      (fun answer => decide (elapsedSince (nowTruncated wall) mesg.LastUpdateTime > answer.Hdr.Ttl))

/-- The operation is a `Remove` or a `Set` on `key`, in any letter case. -/
def Op.removesOrSets (key : String) : Op → Bool
  | Op.Set _ k _ => decide (toLower k = toLower key)
  | Op.Remove k => decide (toLower k = toLower key)
  | _ => false

/-- A store that holds `example.com.` with a nil payload, as `Set` with a nil
message leaves it. -/
def nilPayloadStore : MemoryCache :=
  ((NewMemoryCache 0).Set 0 "Example.com." none).1

/-! ## Construction of the handler and serving a query -/

/-- Position of the first `c` in `l` (`bytealg.IndexByteString`). -/
def indexByte (c : Char) : List Char → Option Nat
  | [] => none
  | x :: xs => if x = c then some 0 else (indexByte c xs).map (fun i => i + 1)

/-- Position of the last `c` in `l` (`bytealg.LastIndexByteString`). -/
def lastIndexByte (c : Char) : List Char → Option Nat
  | [] => none
  | x :: xs =>
    match lastIndexByte c xs with
    | some i => some (i + 1)
    | none => if x = c then some 0 else none

/-- Library function `net.SplitHostPort`: host, port and error (`none` is nil); on
an error host and port are empty. `New` drops the error, whose text only names the
case here. -/
def SplitHostPort (hostport : String) : String × String × Option String :=
  let s := hostport.data
  let addrErr : String → String × String × Option String := fun why => ("", "", some why)
  match lastIndexByte ':' s with
  | none => addrErr "missing port in address"
  | some i =>
    let finish : List Char → Nat → Nat → String × String × Option String := fun host j k =>
      if (indexByte '[' (s.drop j)).isSome then addrErr "unexpected [ in address"
      else if (indexByte ']' (s.drop k)).isSome then addrErr "unexpected ] in address"
      else (String.mk host, String.mk (s.drop (i + 1)), none)
    if s.head? = some '[' then
      match indexByte ']' s with
      | none => addrErr "missing ] in address"
      | some e =>
        if e + 1 = s.length then addrErr "missing port in address"
        else if e + 1 = i then finish ((s.take e).drop 1) 1 (e + 1)
        else if s.get? (e + 1) = some ':' then addrErr "too many colons in address"
        else addrErr "missing port in address"
    else
      if (indexByte ':' (s.take i)).isSome then addrErr "too many colons in address"
      else finish (s.take i) 0 0

/-- Library method `IP.To4` on the bytes of an address: `none` is the nil slice. -/
def To4 (ip : List Nat) : Option (List Nat) :=
  if ip.length = 4 then some ip
  else if ip.length = 16 ∧ (ip.take 10).all (fun b => b = 0) ∧ ip.get? 10 = some 255 ∧
      ip.get? 11 = some 255 then some (ip.drop 12)
  else none

/-- Library method `IP.To16` on the bytes of an address: `none` is the nil slice. -/
def To16 (ip : List Nat) : Option (List Nat) :=
  if ip.length = 4 then some ([0, 0, 0, 0, 0, 0, 0, 0, 0, 0, 255, 255] ++ ip)
  else if ip.length = 16 then some ip
  else none

/-- The test `New` makes on one configured string, `ParseIP` being the library
function `net.ParseIP` (`none` is the nil address): the first or the second branch of
its `if` appends the string. -/
def keepServer (ParseIP : String → Option (List Nat)) (s : String) : Bool :=
  let host := (SplitHostPort s).1
  match ParseIP host with
  | none => false
  | some ip => if (To4 ip).isSome then true else if (To16 ip).isSome then true else false

/-- The loop of `New` over the configured strings, `acc` being `fallbackservers`. -/
def newLoop (ParseIP : String → Option (List Nat)) : List String → List String → List String
  | [], acc => acc
  | s :: rest, acc =>
    if keepServer ParseIP s then newLoop ParseIP rest (acc ++ [s])
    else newLoop ParseIP rest acc

/-- Constructor `New` on the list `cfg.FallbackServers`. -/
def New (ParseIP : String → Option (List Nat)) (FallbackServers : List String) : Failover :=
  { servers := newLoop ParseIP FallbackServers [] }

/-- A port in the words of the spec: a decimal number without sign, at most 65535. -/
def validPort (port : String) : Bool :=
  !port.data.isEmpty && port.data.all Char.isDigit &&
    decide (port.data.foldl (fun n ch => 10 * n + (ch.toNat - 48)) 0 ≤ 65535)

/-- A syntactically valid IPv4 or IPv6 `host:port` endpoint in the words of the
spec: the string splits into host and port, the host is an address and the port is
a port. -/
def validEndpoint (ParseIP : String → Option (List Nat)) (s : String) : Bool :=
  (SplitHostPort s).2.2.isNone && (ParseIP (SplitHostPort s).1).isSome &&
    validPort (SplitHostPort s).2.1

/-- What `net.ParseIP` returns on the two addresses of the examples, `192.0.2.53`
and `2001:db8::53`, and on the strings of the examples that are no address. -/
def exampleParseIP (host : String) : Option (List Nat) :=
  if host = "192.0.2.53" then some [0, 0, 0, 0, 0, 0, 0, 0, 0, 0, 255, 255, 192, 0, 2, 53]
  else if host = "2001:db8::53" then some [32, 1, 13, 184, 0, 0, 0, 0, 0, 0, 0, 0, 0, 0, 0, 83]
  else none

/-- What `ServeDNS` does, in order: it takes a wrapper from the pool, installs it as
the writer of the query, lets the next stage run, and puts the former writer back. -/
inductive ServeEvent where
  | Acquire
  | Install
  | Next (e : Event)
  | Restore
deriving DecidableEq, Repr

/-- The next stage, as the `WriteMsg` calls it makes through the installed wrapper,
each with the network it meets: their events, in order. -/
def nextWrites (rw : ResponseWriter) : List (Env × Msg) → List ServeEvent
  | [] => []
  | (env, m) :: rest => (rw.WriteMsg env m).1.map ServeEvent.Next ++ nextWrites rw rest

/-- Method `ServeDNS`: `inner` is the writer of the query, `next` the writes of the
next stage. -/
def Failover.ServeDNS (f : Failover) (inner : Msg → Option String)
    (next : List (Env × Msg)) : List ServeEvent :=
  let rw : ResponseWriter := { Inner := inner, f := f }
  [ServeEvent.Acquire, ServeEvent.Install] ++ nextWrites rw next ++ [ServeEvent.Restore]

/-- Number of times the wrapper is taken from the pool (`AcquireWriter`). -/
def acquires (evs : List ServeEvent) : Nat := evs.count ServeEvent.Acquire

/-- Number of times the wrapper is put into the pool (`ReleaseWriter`). -/
def releases (evs : List ServeEvent) : Nat := evs.count (ServeEvent.Next Event.Release)

/-! ## Concurrent `Set`s -/

/-- The test of `Set`, `c.Full() && !c.Exists(key)`: two reads of the map, each
under the read lock, here made one after the other without another unit between. -/
def MemoryCache.SetCheck (c : MemoryCache) (key : String) : Bool :=
  c.Full && !c.Exists (toLower key)

/-- The rest of `Set` after its test returned `reject`: the error, or the
assignment to the map under the write lock. -/
def MemoryCache.SetStore (c : MemoryCache) (wall : Int) (key : String) (msg : Option Msg)
    (reject : Bool) : MemoryCache × Option CacheError :=
  if reject then (c, some CacheError.CacheIsFull)
  else
    let mesg : Mesg := { Msg := msg, LastUpdateTime := nowTruncated wall }
    ({ c with Backend := c.Backend.insert (toLower key) mesg }, none)

/-- Where an execution unit stands in its call of `Set`. -/
inductive SetPc where
  | start
  | tested (reject : Bool)
  | returned (err : Option CacheError)
deriving DecidableEq, Repr

/-- An execution unit calling `Set(key, msg)`, with the clock reading it will see. -/
structure SetCall where
  wall : Int
  key : String
  msg : Option Msg
  pc : SetPc
deriving DecidableEq, Repr

/-- One step of a unit on the shared store: its test, then its store or return. -/
def stepUnit (c : MemoryCache) (u : SetCall) : MemoryCache × SetCall :=
  match u.pc with
  | SetPc.start => (c, { u with pc := SetPc.tested (c.SetCheck u.key) })
  | SetPc.tested reject =>
    let r := c.SetStore u.wall u.key u.msg reject
    (r.1, { u with pc := SetPc.returned r.2 })
  | SetPc.returned _ => (c, u)

/-- The units run under a schedule: the list of the units that take a step, in
order. -/
def runSchedule (c : MemoryCache) (us : List SetCall) : List Nat → MemoryCache × List SetCall
  | [] => (c, us)
  | i :: rest =>
    match us.get? i with
    | none => runSchedule c us rest
    | some u => runSchedule (stepUnit c u).1 (us.set i (stepUnit c u).2) rest

/-! ## Lemmas on keys -/

theorem toNat_ofNat_lower (n : Nat) (h1 : 65 ≤ n) (h2 : n ≤ 90) :
    (Char.ofNat (n + 32)).toNat = n + 32 := by
  interval_cases n <;> rfl

theorem char_toLower_of_upper (c : Char) (h1 : 65 ≤ c.toNat) (h2 : c.toNat ≤ 90) :
    c.toLower = Char.ofNat (c.toNat + 32) := by
  unfold Char.toLower
  simp [h1, h2]

theorem char_toLower_of_not_upper (c : Char) (h : ¬ (65 ≤ c.toNat ∧ c.toNat ≤ 90)) :
    c.toLower = c := by
  unfold Char.toLower
  simp only [ge_iff_le]
  rw [if_neg h]

theorem char_toLower_idem (c : Char) : c.toLower.toLower = c.toLower := by
  by_cases h : 65 ≤ c.toNat ∧ c.toNat ≤ 90
  · rw [char_toLower_of_upper c h.1 h.2]
    apply char_toLower_of_not_upper
    rw [toNat_ofNat_lower _ h.1 h.2]
    omega
  · rw [char_toLower_of_not_upper c h, char_toLower_of_not_upper c h]

theorem toLower_idem (k : String) : toLower (toLower k) = toLower k := by
  unfold toLower
  congr 1
  simp only [List.map_map]
  exact List.map_congr_left (fun c _ => char_toLower_idem c)

theorem sameLetter_toLower {a b : Char} (h : sameLetter a b) : a.toLower = b.toLower := by
  have key : ∀ x y : Char, 65 ≤ x.toNat → x.toNat ≤ 90 → y.toNat = x.toNat + 32 →
      x.toLower = y.toLower := by
    intro x y h1 h2 h3
    rw [char_toLower_of_upper x h1 h2, char_toLower_of_not_upper y (by omega), ← h3,
      Char.ofNat_toNat]
  rcases h with h | ⟨h1, h2, h3⟩ | ⟨h1, h2, h3⟩
  · rw [h]
  · exact key a b h1 h2 h3
  · exact (key b a h1 h2 h3).symm

theorem map_toLower_eq : ∀ (l l' : List Char), l.length = l'.length →
    (∀ p ∈ List.zip l l', sameLetter p.1 p.2) → l.map Char.toLower = l'.map Char.toLower
  | [], [], _, _ => rfl
  | [], _ :: _, h, _ => by simp at h
  | _ :: _, [], h, _ => by simp at h
  | a :: l, b :: l', h, hz => by
    have hab : sameLetter a b := hz (a, b) (by simp)
    have ht := map_toLower_eq l l' (by simpa using h)
      (fun p hp => hz p (by simp [List.zip_cons_cons, hp]))
    simp [sameLetter_toLower hab, ht]

theorem toLower_eq_of_differOnlyByCase {k k' : String} (h : differOnlyByCase k k') :
    toLower k = toLower k' := by
  unfold toLower
  rw [map_toLower_eq k.data k'.data h.1 h.2]

/-! ## Lemmas on the map -/

theorem dlookup_kreplace_ne {β : Type} (a a' : String) (b' : β) (h : a ≠ a') :
    ∀ l : List (Sigma (fun _ : String => β)),
      List.dlookup a (List.kreplace a' b' l) = List.dlookup a l
  | [] => rfl
  | ⟨k, v⟩ :: l => by
    by_cases hk : a' = k
    · subst hk
      have e : List.kreplace a' b' (⟨a', v⟩ :: l) = ⟨a', b'⟩ :: l := by
        simp [List.kreplace, List.lookmap_cons_some]
      rw [e, List.dlookup_cons_ne _ _ h, List.dlookup_cons_ne _ _ h]
    · have e : List.kreplace a' b' (⟨k, v⟩ :: l) = ⟨k, v⟩ :: List.kreplace a' b' l := by
        simp [List.kreplace, List.lookmap_cons_none, hk]
      rw [e]
      by_cases hak : a = k
      · subst hak
        rw [List.dlookup_cons_eq, List.dlookup_cons_eq]
      · rw [List.dlookup_cons_ne _ _ hak, List.dlookup_cons_ne _ _ hak]
        exact dlookup_kreplace_ne a a' b' h l

theorem dlookup_kreplace_self {β : Type} (a : String) (b : β) :
    ∀ l : List (Sigma (fun _ : String => β)), a ∈ l.keys →
      List.dlookup a (List.kreplace a b l) = some b
  | [], h => by simp at h
  | ⟨k, v⟩ :: l, h => by
    by_cases hk : a = k
    · subst hk
      have e : List.kreplace a b (⟨a, v⟩ :: l) = ⟨a, b⟩ :: l := by
        simp [List.kreplace, List.lookmap_cons_some]
      rw [e, List.dlookup_cons_eq]
    · have e : List.kreplace a b (⟨k, v⟩ :: l) = ⟨k, v⟩ :: List.kreplace a b l := by
        simp [List.kreplace, List.lookmap_cons_none, hk]
      have h1 : a ∈ l.keys := by
        simp [List.keys] at h
        rcases h with h | h
        · exact absurd h hk
        · simpa [List.keys] using h
      rw [e, List.dlookup_cons_ne _ _ hk]
      exact dlookup_kreplace_self a b l h1

theorem lookup_replace_ne {a a' : String} (b' : Mesg) (s : AList (fun _ : String => Mesg))
    (h : a ≠ a') : (s.replace a' b').lookup a = s.lookup a :=
  dlookup_kreplace_ne a a' b' h s.entries

theorem lookup_replace_self {a : String} (b : Mesg) (s : AList (fun _ : String => Mesg))
    (h : a ∈ s) : (s.replace a b).lookup a = some b :=
  dlookup_kreplace_self a b s.entries h

theorem mem_of_lookup_eq_some {a : String} {b : Mesg} {s : AList (fun _ : String => Mesg)}
    (h : s.lookup a = some b) : a ∈ s := by
  rw [← AList.lookup_isSome, h]; rfl

theorem length_keys_erase_le (a : String) (s : AList (fun _ : String => Mesg)) :
    (s.erase a).keys.length ≤ s.keys.length := by
  rw [AList.keys_erase]
  exact (List.erase_sublist a s.keys).length_le

theorem length_keys_erase_of_mem {a : String} {s : AList (fun _ : String => Mesg)}
    (h : a ∈ s) : (s.erase a).keys.length = s.keys.length - 1 := by
  rw [AList.keys_erase]
  exact List.length_erase_of_mem (AList.mem_keys.mp h)

theorem length_keys_insert_of_mem {a : String} (b : Mesg) {s : AList (fun _ : String => Mesg)}
    (h : a ∈ s) : (s.insert a b).keys.length = s.keys.length := by
  have hk := AList.mem_keys.mp h
  rw [AList.keys_insert, List.length_cons, List.length_erase_of_mem hk]
  have := List.length_pos_of_mem hk
  omega

theorem length_keys_insert_of_not_mem {a : String} (b : Mesg)
    {s : AList (fun _ : String => Mesg)} (h : a ∉ s) :
    (s.insert a b).keys.length = s.keys.length + 1 := by
  have hk : a ∉ s.keys := fun hm => h (AList.mem_keys.mpr hm)
  rw [AList.keys_insert, List.length_cons, List.erase_of_not_mem hk]

/-! ## Lemmas on time -/

theorem nowTruncated_eq (wall : Int) : nowTruncated wall = wall - wall % 1000000000 := by
  unfold nowTruncated Time.Truncate Second
  simp

theorem secondsBetween_mul (wall0 wall : Int) :
    secondsBetween wall0 wall * 1000000000 = nowTruncated wall - nowTruncated wall0 := by
  unfold secondsBetween Second
  rw [nowTruncated_eq, nowTruncated_eq]
  omega

theorem elapsedSince_of_seconds (now last : Int) (e : Int) (h : now - last = e * 1000000000)
    (h0 : 0 ≤ e) (h1 : e < 4294967296) : elapsedSince now last = e.toNat := by
  have hs : Time.Sub now last = e * 1000000000 := by
    unfold Time.Sub maxDuration minDuration
    rw [h, if_neg (by omega), if_neg (by omega)]
  unfold elapsedSince Duration.Seconds toUint32 Second
  rw [hs, Int.tdiv_eq_ediv (by omega) (by omega)]
  have e1 : e * 1000000000 / 1000000000 = e := by omega
  rw [e1]
  congr 1
  omega

theorem elapsedSince_nowTruncated (wall0 wall : Int) (h0 : 0 ≤ secondsBetween wall0 wall)
    (h1 : secondsBetween wall0 wall < 4294967296) :
    elapsedSince (nowTruncated wall) (nowTruncated wall0) = (secondsBetween wall0 wall).toNat :=
  elapsedSince_of_seconds _ _ _ (secondsBetween_mul wall0 wall).symm h0 h1

theorem subU32_eq (t e : Nat) (h : e ≤ t) (ht : t < 4294967296) : subU32 t e = t - e := by
  unfold subU32
  omega

/-! ## Lemmas on the cache operations -/

theorem ageAnswers_map_older (e d : Nat) : ∀ l : List RR,
    (∀ rr ∈ l, e + d ≤ rr.Hdr.Ttl ∧ rr.Hdr.Ttl < 4294967296) →
    ageAnswers d (l.map (fun rr => { rr with Hdr := { rr.Hdr with Ttl := rr.Hdr.Ttl - e } })) =
      some (l.map (fun rr => { rr with Hdr := { rr.Hdr with Ttl := rr.Hdr.Ttl - (e + d) } }))
  | [], _ => rfl
  | rr :: l, h => by
    have hr := h rr (List.mem_cons_self rr l)
    have ih := ageAnswers_map_older e d l (fun x hx => h x (List.mem_cons_of_mem rr hx))
    have h1 : ¬ d > rr.Hdr.Ttl - e := by omega
    have h2 : subU32 (rr.Hdr.Ttl - e) d = rr.Hdr.Ttl - (e + d) := by
      rw [subU32_eq _ _ (by omega) (by omega)]; omega
    simp only [List.map_cons, ageAnswers, if_neg h1, ih, h2]

theorem ageAnswers_eq_none (d : Nat) : ∀ l : List RR, (∃ rr ∈ l, d > rr.Hdr.Ttl) →
    ageAnswers d l = none
  | [], h => by simp at h
  | rr :: l, h => by
    by_cases h1 : d > rr.Hdr.Ttl
    · simp only [ageAnswers, if_pos h1]
    · have h2 : ∃ x ∈ l, d > x.Hdr.Ttl := by
        rcases h with ⟨x, hx, hd⟩
        rcases List.mem_cons.mp hx with hx | hx
        · subst hx; exact absurd hd h1
        · exact ⟨x, hx, hd⟩
      simp only [ageAnswers, if_neg h1, ageAnswers_eq_none d l h2]

theorem aged_zero (m : Msg) : m.aged 0 = m := by
  unfold Msg.aged
  simp

theorem Get_of_lookup_none (c : MemoryCache) (wall : Int) (key : String)
    (h : c.Backend.lookup (toLower key) = none) :
    c.Get wall key = (c, none, some (CacheError.KeyNotFound (toLower key))) := by
  simp [MemoryCache.Get, h]

theorem Get_of_nil (c : MemoryCache) (wall : Int) (key : String) (last : Int)
    (h : c.Backend.lookup (toLower key) = some { Msg := none, LastUpdateTime := last }) :
    c.Get wall key =
      (c.Remove (toLower key), none, some (CacheError.KeyNotFound (toLower key))) := by
  simp [MemoryCache.Get, h]

theorem Get_of_expired (c : MemoryCache) (wall : Int) (key : String) (msg : Msg) (last : Int)
    (h : c.Backend.lookup (toLower key) = some { Msg := some msg, LastUpdateTime := last })
    (ha : ageAnswers (elapsedSince (nowTruncated wall) last) msg.Answer = none) :
    c.Get wall key =
      (c.Remove (toLower key), none, some (CacheError.KeyExpired (toLower key))) := by
  simp [MemoryCache.Get, h, ha]

theorem Get_of_aged (c : MemoryCache) (wall : Int) (key : String) (msg : Msg) (last : Int)
    (aged : List RR)
    (h : c.Backend.lookup (toLower key) = some { Msg := some msg, LastUpdateTime := last })
    (ha : ageAnswers (elapsedSince (nowTruncated wall) last) msg.Answer = some aged) :
    c.Get wall key =
      ({ c with Backend := (c.Backend.replace (toLower key)
          { Msg := some { msg with Answer := aged }, LastUpdateTime := nowTruncated wall }) },
        some { msg with Answer := aged }, none) := by
  simp [MemoryCache.Get, h, ha]

theorem Remove_lookup_ne (c : MemoryCache) (k a : String) (h : a ≠ toLower k) :
    (c.Remove k).Backend.lookup a = c.Backend.lookup a := by
  unfold MemoryCache.Remove
  exact AList.lookup_erase_ne h

theorem Get_lookup_ne (c : MemoryCache) (wall : Int) (k a : String) (h : a ≠ toLower k) :
    (c.Get wall k).1.Backend.lookup a = c.Backend.lookup a := by
  cases hl : c.Backend.lookup (toLower k) with
  | none => rw [Get_of_lookup_none c wall k hl]
  | some mesg =>
    rcases mesg with ⟨m, last⟩
    cases m with
    | none =>
      rw [Get_of_nil c wall k last hl]
      exact Remove_lookup_ne c _ a (by rw [toLower_idem]; exact h)
    | some msg =>
      cases ha : ageAnswers (elapsedSince (nowTruncated wall) last) msg.Answer with
      | none =>
        rw [Get_of_expired c wall k msg last hl ha]
        exact Remove_lookup_ne c _ a (by rw [toLower_idem]; exact h)
      | some aged =>
        rw [Get_of_aged c wall k msg last aged hl ha]
        exact lookup_replace_ne _ _ h

theorem Set_lookup_ne (c : MemoryCache) (wall : Int) (k : String) (msg : Option Msg)
    (a : String) (h : a ≠ toLower k) :
    (c.Set wall k msg).1.Backend.lookup a = c.Backend.lookup a := by
  unfold MemoryCache.Set
  dsimp only
  split
  · rfl
  · exact AList.lookup_insert_ne h

theorem Set_lookup_self (c : MemoryCache) (wall : Int) (k : String) (msg : Option Msg)
    (h : (c.Set wall k msg).2 = none) :
    (c.Set wall k msg).1.Backend.lookup (toLower k) =
      some { Msg := msg, LastUpdateTime := nowTruncated wall } := by
  unfold MemoryCache.Set at h ⊢
  dsimp only at h ⊢
  split
  · rename_i hf
    rw [if_pos hf] at h
    simp at h
  · exact AList.lookup_insert _

theorem step_of_not_touches (c : MemoryCache) (key : String) (op : Op)
    (h : op.touches key = false) :
    ∃ c1, c.step op = some c1 ∧
      c1.Backend.lookup (toLower key) = c.Backend.lookup (toLower key) := by
  cases op with
  | Set wall k msg =>
    have hk : toLower key ≠ toLower k := by
      intro e; simp [Op.touches, e] at h
    exact ⟨_, rfl, Set_lookup_ne c wall k msg _ hk⟩
  | Get wall k =>
    have hk : toLower key ≠ toLower k := by
      intro e; simp [Op.touches, e] at h
    exact ⟨_, rfl, Get_lookup_ne c wall k _ hk⟩
  | Remove k =>
    have hk : toLower key ≠ toLower k := by
      intro e; simp [Op.touches, e] at h
    exact ⟨_, rfl, Remove_lookup_ne c k _ hk⟩
  | Exists k => exact ⟨c, rfl, rfl⟩
  | Length => exact ⟨c, rfl, rfl⟩
  | Sweep wall => simp [Op.touches] at h

theorem aged_answer (m : Msg) (e : Nat) : (m.aged e).Answer =
    m.Answer.map (fun rr => { rr with Hdr := { rr.Hdr with Ttl := rr.Hdr.Ttl - e } }) := rfl

theorem aged_with_answer (m : Msg) (e e' : Nat) (l : List RR)
    (h : l = m.Answer.map (fun rr => { rr with Hdr := { rr.Hdr with Ttl := rr.Hdr.Ttl - e' } })) :
    ({ m.aged e with Answer := l } : Msg) = m.aged e' := by
  subst h; rfl

theorem secondsBetween_add (a b c : Int) :
    secondsBetween a b + secondsBetween b c = secondsBetween a c := by
  have h1 := secondsBetween_mul a b
  have h2 := secondsBetween_mul b c
  have h3 := secondsBetween_mul a c
  omega

theorem secondsBetween_nonneg (a b : Int) (h : nowTruncated a ≤ nowTruncated b) :
    0 ≤ secondsBetween a b := by
  have h1 := secondsBetween_mul a b
  omega

theorem secondsBetween_self (a : Int) : secondsBetween a a = 0 := by
  have h1 := secondsBetween_mul a a
  omega

/-- One `Get` on an entry that holds `msg` aged by the seconds from `wall0` to
`wprev`, last read at `wprev`: it returns `msg` aged by the seconds from `wall0` to
`wall` and leaves that message in the entry, read at `wall`. -/
theorem Get_aged_step (c : MemoryCache) (key : String) (msg : Msg) (wall0 wprev wall : Int)
    (hwf : msg.wf)
    (hl : c.Backend.lookup (toLower key) =
      some { Msg := some (msg.aged (secondsBetween wall0 wprev).toNat),
             LastUpdateTime := nowTruncated wprev })
    (h0 : nowTruncated wall0 ≤ nowTruncated wprev)
    (h1 : nowTruncated wprev ≤ nowTruncated wall)
    (hb : ∀ rr ∈ msg.Answer, secondsBetween wall0 wall ≤ rr.Hdr.Ttl) :
    (c.Get wall key).2 = (some (msg.aged (secondsBetween wall0 wall).toNat), none) ∧
    (c.Get wall key).1.Backend.lookup (toLower key) =
      some { Msg := some (msg.aged (secondsBetween wall0 wall).toNat),
             LastUpdateTime := nowTruncated wall } := by
  have hadd := secondsBetween_add wall0 wprev wall
  have hn0 := secondsBetween_nonneg wall0 wprev h0
  have hn1 := secondsBetween_nonneg wprev wall h1
  have hmem : toLower key ∈ c.Backend := mem_of_lookup_eq_some hl
  have hage : ageAnswers (elapsedSince (nowTruncated wall) (nowTruncated wprev))
      (msg.aged (secondsBetween wall0 wprev).toNat).Answer =
      some (msg.Answer.map (fun rr =>
        { rr with Hdr := { rr.Hdr with Ttl := rr.Hdr.Ttl - (secondsBetween wall0 wall).toNat } })) := by
    rw [aged_answer]
    cases hans : msg.Answer with
    | nil => rfl
    | cons r rest =>
      have hr : r ∈ msg.Answer := by rw [hans]; exact List.mem_cons_self r rest
      have hrb := hb r hr
      have hrw := hwf r hr
      rw [elapsedSince_nowTruncated wprev wall hn1 (by omega), ← hans]
      have e : (secondsBetween wall0 wall).toNat =
          (secondsBetween wall0 wprev).toNat + (secondsBetween wprev wall).toNat := by omega
      rw [e]
      apply ageAnswers_map_older
      intro rr hrr
      have := hb rr hrr
      have := hwf rr hrr
      constructor
      · omega
      · assumption
  rw [Get_of_aged c wall key _ _ _ hl hage, aged_with_answer msg _ _ _ rfl]
  exact ⟨rfl, lookup_replace_self _ _ hmem⟩

theorem getResults_aged (key : String) (msg : Msg) (wall0 : Int) (hwf : msg.wf) :
    ∀ (ops : List Op) (c : MemoryCache) (wprev : Int),
      c.Backend.lookup (toLower key) =
        some { Msg := some (msg.aged (secondsBetween wall0 wprev).toNat),
               LastUpdateTime := nowTruncated wprev } →
      nowTruncated wall0 ≤ nowTruncated wprev →
      (∀ op ∈ ops, op.touches key = true → op.isGetOn key = true) →
      nonDecreasingFrom (nowTruncated wprev) ((getWalls key ops).map nowTruncated) →
      (∀ w ∈ getWalls key ops, ∀ rr ∈ msg.Answer, secondsBetween wall0 w ≤ rr.Hdr.Ttl) →
      c.getResults key ops =
        (getWalls key ops).map (fun w => (some (msg.aged (secondsBetween wall0 w).toNat), none))
  | [], _, _, _, _, _, _, _ => rfl
  | op :: ops, c, wprev, hl, h0, hops, hch, hb => by
    have hrest : ∀ o ∈ ops, o.touches key = true → o.isGetOn key = true :=
      fun o ho => hops o (List.mem_cons_of_mem op ho)
    have hop : op.touches key = false ∨ ∃ w, op = Op.Get w key := by
      cases ht : op.touches key with
      | false => exact Or.inl rfl
      | true =>
        have hg := hops op (List.mem_cons_self op ops) ht
        cases op with
        | Get wall k =>
          have hk : k = key := by simpa [Op.isGetOn] using hg
          exact Or.inr ⟨wall, by rw [hk]⟩
        | _ => simp [Op.isGetOn] at hg
    rcases hop with ht | ⟨w, rfl⟩
    · obtain ⟨c1, hs, hl1⟩ := step_of_not_touches c key op ht
      have hw : getWalls key (op :: ops) = getWalls key ops := by
        cases op with
        | Get wall k =>
          have hk : k ≠ key := by
            intro e; subst e; simp [Op.touches] at ht
          simp [getWalls, hk]
        | _ => simp [getWalls]
      have hr : c.getResults key (op :: ops) = c1.getResults key ops := by
        cases op with
        | Get wall k =>
          have hk : k ≠ key := by
            intro e; subst e; simp [Op.touches] at ht
          simp only [MemoryCache.step, Option.some.injEq] at hs
          simp [MemoryCache.getResults, hk, hs]
        | _ => simp [MemoryCache.getResults, hs]
      rw [hw] at hch hb ⊢
      rw [hr]
      exact getResults_aged key msg wall0 hwf ops c1 wprev (hl1.trans hl) h0 hrest hch hb
    · simp only [getWalls, if_true, List.map_cons, nonDecreasingFrom] at hch hb ⊢
      have hbw := hb w (List.mem_cons_self _ _)
      obtain ⟨hres, hl1⟩ := Get_aged_step c key msg wall0 wprev w hwf hl h0 hch.1 hbw
      simp only [MemoryCache.getResults, if_true, hres]
      congr 1
      exact getResults_aged key msg wall0 hwf ops _ w hl1 (le_trans h0 hch.1) hrest hch.2
        (fun w' hw' => hb w' (List.mem_cons_of_mem _ hw'))

/-! ## The claims on the cache -/

/-- C1. Monotonic, path-independent decrement. After a successful `Set` of `msg` on
`key` at the truncated instant `t0`, let operations run of which those touching the
key are `Get`s on it, at truncated instants `t0 <= t_1 <= ... <= t_n` with
`t_k - t0` whole seconds at most every record TTL of `msg`. Then every such `Get`
returns no error, and the `k`-th returns `msg` with `t_k - t0` seconds taken off the
TTL of each answer record, whatever the earlier `Get`s were. -/
theorem get_decrement_path_independent (c : MemoryCache) (wall0 : Int) (key : String)
    (msg : Msg) (ops : List Op)
    (hwf : msg.wf)
    (hset : (c.Set wall0 key (some msg)).2 = none)
    (hops : ∀ op ∈ ops, op.touches key = true → op.isGetOn key = true)
    (hmono : nonDecreasingFrom (nowTruncated wall0) ((getWalls key ops).map nowTruncated))
    (hbound : ∀ w ∈ getWalls key ops, ∀ rr ∈ msg.Answer, secondsBetween wall0 w ≤ rr.Hdr.Ttl) :
    (c.Set wall0 key (some msg)).1.getResults key ops =
      (getWalls key ops).map
        (fun w => (some (msg.aged (secondsBetween wall0 w).toNat), none)) := by
  apply getResults_aged key msg wall0 hwf ops _ wall0 _ (le_refl _) hops hmono hbound
  rw [Set_lookup_self c wall0 key (some msg) hset, secondsBetween_self]
  simp [aged_zero]

/-- Witness of C1: TTL 60 at insertion, a `Get` 10 s later returns 50 and a second
`Get` 20 s after that returns 30, a `Set` on another key and a `Get` on a missing key
in between. -/
theorem get_decrement_path_independent_witness :
    ((NewMemoryCache 0).Set 500000000 "Example.com." (some (exampleMsg 0 [60, 300]))).1.getResults
        "Example.com."
        [Op.Get 10500000000 "Example.com.", Op.Set 11000000000 "other." none,
         Op.Get 12000000000 "missing.", Op.Get 30900000000 "Example.com."] =
      (getWalls "Example.com."
        [Op.Get 10500000000 "Example.com.", Op.Set 11000000000 "other." none,
         Op.Get 12000000000 "missing.", Op.Get 30900000000 "Example.com."]).map
        (fun w => (some ((exampleMsg 0 [60, 300]).aged (secondsBetween 500000000 w).toNat), none)) ∧
    ((NewMemoryCache 0).Set 500000000 "Example.com." (some (exampleMsg 0 [60, 300]))).1.getResults
        "Example.com."
        [Op.Get 10500000000 "Example.com.", Op.Set 11000000000 "other." none,
         Op.Get 12000000000 "missing.", Op.Get 30900000000 "Example.com."] =
      [(some (exampleMsg 0 [50, 290]), none), (some (exampleMsg 0 [30, 270]), none)] :=
  ⟨get_decrement_path_independent (NewMemoryCache 0) 500000000 "Example.com."
      (exampleMsg 0 [60, 300]) _ (by decide) (by decide) (by decide) (by decide) (by decide),
    by decide⟩

/-- C2, as stated, fails. An entry whose only record has TTL `2^32 - 1` is read
`2^32` seconds after its insertion, which is more than its minimum TTL: the elapsed
seconds are converted to a `uint32`, and no `uint32` is greater than that TTL, so
`Get` returns no error and the key still exists. -/
theorem get_after_ttl_not_expired :
    ((NewMemoryCache 0).Set 0 "example.com." (some (exampleMsg 0 [4294967295]))).2 = none ∧
    (4294967295 : Int) < secondsBetween 0 4294967296000000000 ∧
    (((NewMemoryCache 0).Set 0 "example.com." (some (exampleMsg 0 [4294967295]))).1.Get
        4294967296000000000 "example.com.").2.2 = none ∧
    (((NewMemoryCache 0).Set 0 "example.com." (some (exampleMsg 0 [4294967295]))).1.Get
        4294967296000000000 "example.com.").1.Exists "example.com." = true := by
  decide

/-- C2, amended. Expiry on access: after a successful `Set` of a message on `key`, in
any store `c2` that still holds the entry as the `Set` left it, a `Get` on the key
more than `T` and fewer than `2^32` whole seconds after the insertion, `T` being the
TTL of a record of the answer (so also the minimum one), returns `KeyExpired`, and
`Exists` on the key is false afterwards. -/
theorem get_expired_after_ttl (c c2 : MemoryCache) (wall0 wall : Int) (key : String)
    (msg : Msg) (T : Nat)
    (hset : (c.Set wall0 key (some msg)).2 = none)
    (hframe : c2.Backend.lookup (toLower key) =
      (c.Set wall0 key (some msg)).1.Backend.lookup (toLower key))
    (hT : ∃ rr ∈ msg.Answer, rr.Hdr.Ttl = T)
    (hgt : (T : Int) < secondsBetween wall0 wall)
    (hlt : secondsBetween wall0 wall < 4294967296) :
    (c2.Get wall key).2 = (none, some (CacheError.KeyExpired (toLower key))) ∧
    (c2.Get wall key).1.Exists key = false := by
  rw [Set_lookup_self c wall0 key (some msg) hset] at hframe
  have hage : ageAnswers (elapsedSince (nowTruncated wall) (nowTruncated wall0)) msg.Answer =
      none := by
    apply ageAnswers_eq_none
    obtain ⟨rr, hrr, hT⟩ := hT
    refine ⟨rr, hrr, ?_⟩
    rw [elapsedSince_nowTruncated wall0 wall (by omega) hlt]
    omega
  rw [Get_of_expired c2 wall key msg _ hframe hage]
  refine ⟨rfl, ?_⟩
  simp [MemoryCache.Exists, MemoryCache.Remove, toLower_idem]

/-- Witness of the amended C2: records of TTL 60 and 30 read 31 s after insertion. -/
theorem get_expired_after_ttl_witness :
    (((NewMemoryCache 0).Set 0 "example.com." (some (exampleMsg 0 [60, 30]))).1.Get
        31000000000 "Example.COM.").2 =
      (none, some (CacheError.KeyExpired (toLower "Example.COM."))) ∧
    (((NewMemoryCache 0).Set 0 "example.com." (some (exampleMsg 0 [60, 30]))).1.Get
        31000000000 "Example.COM.").1.Exists "Example.COM." = false :=
  get_expired_after_ttl (NewMemoryCache 0) _ 0 31000000000 "Example.COM."
    (exampleMsg 0 [60, 30]) 30 (by decide) (by decide) (by decide) (by decide) (by decide)

/-- C3. Round trip within one second: when `Set` of `msg` on `key` returns no error
and `Get` on the key follows while the truncated clock reads what it read at the
`Set`, `Get` returns no error and returns `msg`, every TTL as inserted; the entry
still holds `msg` afterwards. -/
theorem set_get_same_second (c : MemoryCache) (wall0 wall : Int) (key : String) (msg : Msg)
    (hwf : msg.wf)
    (hset : (c.Set wall0 key (some msg)).2 = none)
    (hsame : nowTruncated wall = nowTruncated wall0) :
    ((c.Set wall0 key (some msg)).1.Get wall key).2 = (some msg, none) ∧
    ((c.Set wall0 key (some msg)).1.Get wall key).1.Backend.lookup (toLower key) =
      some { Msg := some msg, LastUpdateTime := nowTruncated wall0 } := by
  have hl := Set_lookup_self c wall0 key (some msg) hset
  have hz : secondsBetween wall0 wall = 0 := by
    have := secondsBetween_mul wall0 wall
    omega
  have hl0 : (c.Set wall0 key (some msg)).1.Backend.lookup (toLower key) =
      some { Msg := some (msg.aged (secondsBetween wall0 wall0).toNat),
             LastUpdateTime := nowTruncated wall0 } := by
    rw [hl, secondsBetween_self]
    simp [aged_zero]
  have h := Get_aged_step _ key msg wall0 wall0 wall hwf hl0 (le_refl _)
    (le_of_eq hsame.symm) (fun rr _ => by rw [hz]; exact Int.ofNat_nonneg _)
  rw [h.1, h.2, hz, hsame]
  simp [aged_zero]

/-- Witness of C3: a `Set` at 5.2 s and a `Get` at 5.9 s of the same second. -/
theorem set_get_same_second_witness :
    (((NewMemoryCache 1).Set 5200000000 "example.com." (some (exampleMsg 0 [60, 0]))).1.Get
        5900000000 "example.com.").2 = (some (exampleMsg 0 [60, 0]), none) :=
  (set_get_same_second (NewMemoryCache 1) 5200000000 5900000000 "example.com."
    (exampleMsg 0 [60, 0]) (by decide) (by decide) (by decide)).1

theorem Exists_eq_true_iff (c : MemoryCache) (key : String) :
    c.Exists key = true ↔ toLower key ∈ c.Backend := by
  unfold MemoryCache.Exists
  exact AList.lookup_isSome

theorem Set_of_exists (c : MemoryCache) (wall : Int) (key : String) (msg : Option Msg)
    (h : c.Exists key = true) :
    c.Set wall key msg =
      ({ c with Backend := (c.Backend.insert (toLower key)
          { Msg := msg, LastUpdateTime := nowTruncated wall }) }, none) := by
  have h1 : c.Exists (toLower key) = true := by
    rw [Exists_eq_true_iff] at h ⊢
    rw [toLower_idem]; exact h
  simp [MemoryCache.Set, h1]

theorem Set_of_not_full (c : MemoryCache) (wall : Int) (key : String) (msg : Option Msg)
    (h : c.Full = false) :
    c.Set wall key msg =
      ({ c with Backend := (c.Backend.insert (toLower key)
          { Msg := msg, LastUpdateTime := nowTruncated wall }) }, none) := by
  simp [MemoryCache.Set, h]

theorem Set_of_full_new (c : MemoryCache) (wall : Int) (key : String) (msg : Option Msg)
    (hf : c.Full = true) (h : c.Exists key = false) :
    c.Set wall key msg = (c, some CacheError.CacheIsFull) := by
  have h1 : c.Exists (toLower key) = false := by
    unfold MemoryCache.Exists at h ⊢
    rw [toLower_idem]; exact h
  simp [MemoryCache.Set, hf, h1]

theorem Set_exists_self (c : MemoryCache) (wall : Int) (key : String) (msg : Option Msg)
    (h : (c.Set wall key msg).2 = none) : (c.Set wall key msg).1.Exists key = true := by
  unfold MemoryCache.Exists
  rw [Set_lookup_self c wall key msg h]
  rfl

/-- C4. Case-insensitive keys: for keys `k` and `k'` that differ only by letter
case, every operation treats them as the same key: `Get`, `Exists`, `Set` and
`Remove` return the same and leave the same store on `k'` as on `k`, in every store
and at every instant. After a `Set` on `k` that returned no error, `Exists` on `k'`
is true, a `Set` on `k'` returns no error, overwrites the entry of `k` and leaves
`Length` as it was, and `Remove` on `k'` removes the entry. A `Get` on `k'` succeeds
and returns the stored answer wherever a `Get` on `k` does: for a message that is
not nil, read at most as many whole seconds after the `Set` as every record TTL, it
returns no error and the stored message, those seconds taken off each TTL. -/
theorem keys_case_insensitive (k k' : String) (h : differOnlyByCase k k') :
    (∀ (c : MemoryCache) (wall : Int), c.Get wall k' = c.Get wall k) ∧
    (∀ c : MemoryCache, c.Exists k' = c.Exists k) ∧
    (∀ (c : MemoryCache) (wall : Int) (msg : Option Msg), c.Set wall k' msg = c.Set wall k msg) ∧
    (∀ c : MemoryCache, c.Remove k' = c.Remove k) ∧
    (∀ (c : MemoryCache) (wall : Int) (msg : Option Msg), (c.Set wall k msg).2 = none →
      (c.Set wall k msg).1.Exists k' = true ∧
      (∀ (wall2 : Int) (msg2 : Option Msg),
        ((c.Set wall k msg).1.Set wall2 k' msg2).2 = none ∧
        ((c.Set wall k msg).1.Set wall2 k' msg2).1.Length = (c.Set wall k msg).1.Length ∧
        ((c.Set wall k msg).1.Set wall2 k' msg2).1.Backend.lookup (toLower k) =
          some { Msg := msg2, LastUpdateTime := nowTruncated wall2 }) ∧
      ((c.Set wall k msg).1.Remove k').Exists k = false) ∧
    (∀ (c : MemoryCache) (wall wall2 : Int) (m : Msg), m.wf →
      (c.Set wall k (some m)).2 = none → nowTruncated wall ≤ nowTruncated wall2 →
      (∀ rr ∈ m.Answer, secondsBetween wall wall2 ≤ rr.Hdr.Ttl) →
      ((c.Set wall k (some m)).1.Get wall2 k').2 =
        (some (m.aged (secondsBetween wall wall2).toNat), none)) ∧
    (∀ (c : MemoryCache) (wall wall2 : Int) (msg : Option Msg) (m : Msg),
      (c.Set wall k msg).2 = none →
      ((c.Set wall k msg).1.Get wall2 k).2 = (some m, none) →
      ((c.Set wall k msg).1.Get wall2 k').2 = (some m, none)) := by
  have hk : toLower k' = toLower k := (toLower_eq_of_differOnlyByCase h).symm
  have hget : ∀ (c : MemoryCache) (wall : Int), c.Get wall k' = c.Get wall k := by
    intro c wall; unfold MemoryCache.Get; rw [hk]
  have hex : ∀ c : MemoryCache, c.Exists k' = c.Exists k := by
    intro c; unfold MemoryCache.Exists; rw [hk]
  have hset : ∀ (c : MemoryCache) (wall : Int) (msg : Option Msg),
      c.Set wall k' msg = c.Set wall k msg := by
    intro c wall msg; unfold MemoryCache.Set; rw [hk]
  have hrem : ∀ c : MemoryCache, c.Remove k' = c.Remove k := by
    intro c; unfold MemoryCache.Remove; rw [hk]
  refine ⟨hget, hex, hset, hrem, ?_, ?_, ?_⟩
  · intro c wall msg hs
    have he : (c.Set wall k msg).1.Exists k = true := Set_exists_self c wall k msg hs
    refine ⟨by rw [hex]; exact he, ?_, ?_⟩
    · intro wall2 msg2
      rw [hset, Set_of_exists _ wall2 k msg2 he]
      refine ⟨rfl, ?_, AList.lookup_insert _⟩
      unfold MemoryCache.Length
      rw [length_keys_insert_of_mem _ ((Exists_eq_true_iff _ _).mp he)]
    · rw [hrem]
      simp [MemoryCache.Exists, MemoryCache.Remove]
  · intro c wall wall2 m hwf hs hle hb
    rw [hget]
    have hl0 : (c.Set wall k (some m)).1.Backend.lookup (toLower k) =
        some { Msg := some (m.aged (secondsBetween wall wall).toNat),
               LastUpdateTime := nowTruncated wall } := by
      rw [Set_lookup_self c wall k (some m) hs, secondsBetween_self]
      simp [aged_zero]
    exact (Get_aged_step _ k m wall wall wall2 hwf hl0 (le_refl _) hle hb).1
  · intro c wall wall2 msg m _ hg
    rw [hget]
    exact hg

/-- Witness of C4: `Set("Example.com.")` at 0 s, then
`Get("example.COM.")` at 10 s, and `Exists("example.COM.")`. -/
theorem keys_case_insensitive_witness :
    differOnlyByCase "Example.com." "example.COM." ∧
    (((NewMemoryCache 1).Set 0 "Example.com." (some (exampleMsg 0 [60]))).1.Get
        10000000000 "example.COM.").2 =
      (some ((exampleMsg 0 [60]).aged (secondsBetween 0 10000000000).toNat), none) ∧
    ((NewMemoryCache 1).Set 0 "Example.com." (some (exampleMsg 0 [60]))).1.Exists
        "example.COM." = true :=
  ⟨by decide,
    (keys_case_insensitive "Example.com." "example.COM." (by decide)).2.2.2.2.2.1
      (NewMemoryCache 1) 0 10000000000 (exampleMsg 0 [60]) (by decide) (by decide) (by decide)
      (by decide),
    ((keys_case_insensitive "Example.com." "example.COM." (by decide)).2.2.2.2.1
      (NewMemoryCache 1) 0 (some (exampleMsg 0 [60])) (by decide)).1⟩

theorem Full_eq_false_of_lt (c : MemoryCache) (h : c.Length < c.Maxcount) : c.Full = false := by
  unfold MemoryCache.Full
  split
  · rfl
  · simp; omega

theorem Full_eq_true_of_ge (c : MemoryCache) (h0 : c.Maxcount ≠ 0) (h : c.Maxcount ≤ c.Length) :
    c.Full = true := by
  unfold MemoryCache.Full
  rw [if_neg h0]
  simpa using h

theorem Exists_eq_false_iff (c : MemoryCache) (key : String) :
    c.Exists key = false ↔ toLower key ∉ c.Backend := by
  rw [← Exists_eq_true_iff]
  simp

theorem Sets_fresh (N : Int) : ∀ (sets : List (Int × String × Option Msg)) (c : MemoryCache),
    c.Maxcount = N → c.Length + sets.length ≤ N →
    (sets.map (fun s => toLower s.2.1)).Nodup →
    (∀ s ∈ sets, toLower s.2.1 ∉ c.Backend) →
    (∀ e ∈ (c.Sets sets).2, e = none) ∧ (c.Sets sets).2.length = sets.length ∧
      (c.Sets sets).1.Length = c.Length + sets.length ∧
      (c.Sets sets).1.Maxcount = N ∧
      (∀ a, a ∈ (c.Sets sets).1.Backend ↔
        (a ∈ c.Backend ∨ a ∈ sets.map (fun s => toLower s.2.1)))
  | [], c, hm, _, _, _ => by simp [MemoryCache.Sets, hm]
  | (wall, key, msg) :: rest, c, hm, hlen, hnd, hnew => by
    simp only [List.map_cons, List.nodup_cons, List.length_cons, Nat.cast_add,
      Nat.cast_one] at hnd hlen
    have hkey : toLower key ∉ c.Backend := hnew (wall, key, msg) (List.mem_cons_self _ _)
    have hfull : c.Full = false := Full_eq_false_of_lt c (by rw [hm]; omega)
    have hset := Set_of_not_full c wall key msg hfull
    have ih := Sets_fresh N rest (c.Set wall key msg).1 (by rw [hset]; exact hm)
      (by
        rw [hset]
        show ((c.Backend.insert (toLower key) _).keys.length : Int) + _ ≤ N
        rw [length_keys_insert_of_not_mem _ hkey]
        unfold MemoryCache.Length at hlen
        push_cast
        omega)
      hnd.2
      (by
        intro s hs
        rw [hset]
        show toLower s.2.1 ∉ c.Backend.insert (toLower key) _
        rw [AList.mem_insert]
        rintro (h | h)
        · exact hnd.1 (by rw [← h]; exact List.mem_map_of_mem (fun s => toLower s.2.1) hs)
        · exact hnew s (List.mem_cons_of_mem _ hs) h)
    obtain ⟨i1, i2, i3, i4, i5⟩ := ih
    have hl1 : (c.Set wall key msg).1.Length = c.Length + 1 := by
      rw [hset]
      show ((c.Backend.insert (toLower key) _).keys.length : Int) = _
      rw [length_keys_insert_of_not_mem _ hkey]
      unfold MemoryCache.Length
      push_cast
      rfl
    refine ⟨?_, ?_, ?_, ?_, ?_⟩
    · intro e he
      simp only [MemoryCache.Sets, List.mem_cons] at he
      rcases he with he | he
      · rw [he, hset]
      · exact i1 e he
    · simp only [MemoryCache.Sets, List.length_cons, i2]
    · simp only [MemoryCache.Sets, List.length_cons, Nat.cast_add, Nat.cast_one]
      rw [i3, hl1]; omega
    · simpa only [MemoryCache.Sets] using i4
    · intro a
      simp only [MemoryCache.Sets, List.map_cons, List.mem_cons]
      rw [i5 a, hset]
      show (a ∈ c.Backend.insert (toLower key) _ ∨ _) ↔ _
      rw [AList.mem_insert]
      tauto

/-- C5. Capacity limit: on the empty cache created with `Maxcount = N > 0`, `N`
`Set`s on keys that are new (pairwise distinct once lower-cased) all return no error
and fill the cache; then a `Set` on a further new key returns `CacheIsFull` and
leaves the store as it is, and a `Set` on any of the `N` keys returns no error and
leaves `Length` at `N`. -/
theorem capacity_limit (N : Nat) (hN : 0 < N) (sets : List (Int × String × Option Msg))
    (hlen : sets.length = N) (hnew : (sets.map (fun s => toLower s.2.1)).Nodup) :
    (∀ e ∈ ((NewMemoryCache N).Sets sets).2, e = none) ∧
    ((NewMemoryCache N).Sets sets).2.length = N ∧
    ((NewMemoryCache N).Sets sets).1.Length = N ∧
    ((NewMemoryCache N).Sets sets).1.Full = true ∧
    (∀ (wall : Int) (key : String) (msg : Option Msg),
      toLower key ∉ sets.map (fun s => toLower s.2.1) →
      ((NewMemoryCache N).Sets sets).1.Set wall key msg =
        (((NewMemoryCache N).Sets sets).1, some CacheError.CacheIsFull)) ∧
    (∀ (wall : Int) (key : String) (msg : Option Msg),
      toLower key ∈ sets.map (fun s => toLower s.2.1) →
      (((NewMemoryCache N).Sets sets).1.Set wall key msg).2 = none ∧
      (((NewMemoryCache N).Sets sets).1.Set wall key msg).1.Length = N ∧
      (((NewMemoryCache N).Sets sets).1.Set wall key msg).1.Backend.lookup (toLower key) =
        some { Msg := msg, LastUpdateTime := nowTruncated wall }) := by
  have h0 : (NewMemoryCache N).Length = 0 := rfl
  obtain ⟨i1, i2, i3, i4, i5⟩ := Sets_fresh N sets (NewMemoryCache N) rfl
    (by rw [h0, hlen]; omega) hnew (fun s _ hm => AList.not_mem_empty _ hm)
  rw [h0, hlen] at i3
  have hfull : ((NewMemoryCache N).Sets sets).1.Full = true :=
    Full_eq_true_of_ge _ (by rw [i4]; omega) (by rw [i4, i3]; omega)
  refine ⟨i1, by rw [i2, hlen], by rw [i3]; omega, hfull, ?_, ?_⟩
  · intro wall key msg hk
    apply Set_of_full_new _ wall key msg hfull
    rw [Exists_eq_false_iff, i5]
    rintro (h | h)
    · exact AList.not_mem_empty _ h
    · exact hk h
  · intro wall key msg hk
    have he : ((NewMemoryCache N).Sets sets).1.Exists key = true := by
      rw [Exists_eq_true_iff, i5]; exact Or.inr hk
    rw [Set_of_exists _ wall key msg he]
    refine ⟨rfl, ?_, AList.lookup_insert _⟩
    show ((AList.insert _ _ _).keys.length : Int) = N
    rw [length_keys_insert_of_mem _ ((Exists_eq_true_iff _ _).mp he)]
    unfold MemoryCache.Length at i3
    omega

/-- Witness of C5: two keys fill a cache of two entries. -/
theorem capacity_limit_witness :
    ((NewMemoryCache (2 : Nat)).Sets
      [(0, "a.example.", some (exampleMsg 0 [60])), (1000000000, "B.example.", none)]).1.Set
        2000000000 "c.example." (some (exampleMsg 0 [5])) =
      (((NewMemoryCache (2 : Nat)).Sets
        [(0, "a.example.", some (exampleMsg 0 [60])), (1000000000, "B.example.", none)]).1,
        some CacheError.CacheIsFull) ∧
    (((NewMemoryCache (2 : Nat)).Sets
      [(0, "a.example.", some (exampleMsg 0 [60])), (1000000000, "B.example.", none)]).1.Set
        2000000000 "b.EXAMPLE." (some (exampleMsg 0 [5]))).2 = none :=
  ⟨(capacity_limit 2 (by decide)
      [(0, "a.example.", some (exampleMsg 0 [60])), (1000000000, "B.example.", none)]
      (by decide) (by decide)).2.2.2.2.1 2000000000 "c.example." (some (exampleMsg 0 [5]))
      (by decide),
   ((capacity_limit 2 (by decide)
      [(0, "a.example.", some (exampleMsg 0 [60])), (1000000000, "B.example.", none)]
      (by decide) (by decide)).2.2.2.2.2 2000000000 "b.EXAMPLE." (some (exampleMsg 0 [5]))
      (by decide)).1⟩

theorem Set_Maxcount (c : MemoryCache) (wall : Int) (key : String) (msg : Option Msg) :
    (c.Set wall key msg).1.Maxcount = c.Maxcount := by
  unfold MemoryCache.Set
  dsimp only
  split <;> rfl

theorem Set_Length_le (c : MemoryCache) (wall : Int) (key : String) (msg : Option Msg)
    (h0 : c.Maxcount ≠ 0) (h : c.Length ≤ c.Maxcount) :
    (c.Set wall key msg).1.Length ≤ c.Maxcount := by
  cases he : c.Exists key with
  | true =>
    rw [Set_of_exists c wall key msg he]
    show ((AList.insert _ _ _).keys.length : Int) ≤ _
    rw [length_keys_insert_of_mem _ ((Exists_eq_true_iff _ _).mp he)]
    exact h
  | false =>
    cases hf : c.Full with
    | true => rw [Set_of_full_new c wall key msg hf he]; exact h
    | false =>
      rw [Set_of_not_full c wall key msg hf]
      show ((AList.insert _ _ _).keys.length : Int) ≤ _
      rw [length_keys_insert_of_not_mem _ ((Exists_eq_false_iff _ _).mp he)]
      unfold MemoryCache.Full at hf
      unfold MemoryCache.Length at h hf
      rw [if_neg h0] at hf
      simp at hf
      push_cast
      omega

theorem Remove_Length_le (c : MemoryCache) (key : String) :
    (c.Remove key).Length ≤ c.Length := by
  unfold MemoryCache.Remove MemoryCache.Length
  exact Int.ofNat_le.mpr (length_keys_erase_le _ _)

theorem Get_Maxcount (c : MemoryCache) (wall : Int) (key : String) :
    (c.Get wall key).1.Maxcount = c.Maxcount := by
  unfold MemoryCache.Get
  dsimp only
  split
  · rfl
  · split
    · rfl
    · split <;> rfl

theorem Get_Length_le (c : MemoryCache) (wall : Int) (key : String) :
    (c.Get wall key).1.Length ≤ c.Length := by
  unfold MemoryCache.Get
  dsimp only
  split
  · exact le_refl _
  · split
    · exact Remove_Length_le c _
    · split
      · exact Remove_Length_le c _
      · show ((AList.replace _ _ _).keys.length : Int) ≤ _
        rw [AList.keys_replace]
        exact le_refl _

theorem runEntry_length_le (wall : Int) (b b1 : AList (fun _ : String => Mesg)) (key : String)
    (mesg : Mesg) (h : runEntry wall b key mesg = some b1) :
    b1.keys.length ≤ b.keys.length := by
  unfold runEntry at h
  dsimp only at h
  split at h
  · exact absurd h (by simp)
  · rename_i msg hm
    simp only [hm, Option.isNone_some, Bool.false_eq_true, if_false] at h
    split at h
    · cases h
      exact length_keys_erase_le _ _
    · cases h
      exact le_refl _

theorem runEntries_length_le (wall : Int) :
    ∀ (es : List (Sigma (fun _ : String => Mesg))) (b b1 : AList (fun _ : String => Mesg)),
      runEntries wall es b = some b1 → b1.keys.length ≤ b.keys.length
  | [], b, b1, h => by
    simp only [runEntries, Option.some.injEq] at h
    rw [h]
  | e :: rest, b, b1, h => by
    simp only [runEntries] at h
    split at h
    · exact absurd h (by simp)
    · rename_i b2 h2
      exact le_trans (runEntries_length_le wall rest b2 b1 h)
        (runEntry_length_le wall b b2 e.1 e.2 h2)

theorem runTick_bounds (c c1 : MemoryCache) (wall : Int) (h : c.runTick wall = some c1) :
    c1.Maxcount = c.Maxcount ∧ c1.Length ≤ c.Length := by
  unfold MemoryCache.runTick at h
  split at h
  · exact absurd h (by simp)
  · rename_i b hb
    cases h
    exact ⟨rfl, Int.ofNat_le.mpr (runEntries_length_le wall _ _ _ hb)⟩

theorem step_bounds (c c1 : MemoryCache) (op : Op) (h : c.step op = some c1)
    (h0 : c.Maxcount ≠ 0) (hl : c.Length ≤ c.Maxcount) :
    c1.Maxcount = c.Maxcount ∧ c1.Length ≤ c.Maxcount := by
  cases op with
  | Set wall key msg =>
    cases h
    exact ⟨Set_Maxcount c wall key msg, Set_Length_le c wall key msg h0 hl⟩
  | Get wall key =>
    cases h
    exact ⟨Get_Maxcount c wall key, le_trans (Get_Length_le c wall key) hl⟩
  | Remove key =>
    cases h
    exact ⟨rfl, le_trans (Remove_Length_le c key) hl⟩
  | Exists key => cases h; exact ⟨rfl, hl⟩
  | Length => cases h; exact ⟨rfl, hl⟩
  | Sweep wall =>
    have hb := runTick_bounds c c1 wall h
    exact ⟨hb.1, le_trans hb.2 hl⟩

theorem step_Maxcount (c c1 : MemoryCache) (op : Op) (h : c.step op = some c1) :
    c1.Maxcount = c.Maxcount := by
  cases op with
  | Set wall key msg => cases h; exact Set_Maxcount c wall key msg
  | Get wall key => cases h; exact Get_Maxcount c wall key
  | Remove key => cases h; rfl
  | Exists key => cases h; rfl
  | Length => cases h; rfl
  | Sweep wall => exact (runTick_bounds c c1 wall h).1

theorem steps_Maxcount : ∀ (ops : List Op) (c c1 : MemoryCache), c.steps ops = some c1 →
    c1.Maxcount = c.Maxcount
  | [], c, c1, h => by
    simp only [MemoryCache.steps, Option.some.injEq] at h
    rw [h]
  | op :: ops, c, c1, h => by
    simp only [MemoryCache.steps] at h
    split at h
    · exact absurd h (by simp)
    · rename_i c2 h2
      rw [steps_Maxcount ops c2 c1 h, step_Maxcount c c2 op h2]

theorem steps_Length_le : ∀ (ops : List Op) (c c1 : MemoryCache), c.steps ops = some c1 →
    c.Maxcount ≠ 0 → c.Length ≤ c.Maxcount → c1.Length ≤ c.Maxcount
  | [], c, c1, h, _, hl => by
    simp only [MemoryCache.steps, Option.some.injEq] at h
    rw [← h]; exact hl
  | op :: ops, c, c1, h, h0, hl => by
    simp only [MemoryCache.steps] at h
    split at h
    · exact absurd h (by simp)
    · rename_i c2 h2
      have hb := step_bounds c c2 op h2 h0 hl
      have := steps_Length_le ops c2 c1 h (by rw [hb.1]; exact h0) (by rw [hb.1]; exact hb.2)
      rw [hb.1] at this
      exact this

/-- C6. Size invariant: every store reached from the empty cache created with
`Maxcount = N` by a sequence of `Set`, `Get`, `Remove`, `Exists`, `Length` and sweep
operations, each at any clock reading, has `Length <= N` when `N > 0`; and when
`N = 0` no `Set` on it returns an error. A sequence reaches no store only when a
sweep has ended the process. -/
theorem size_invariant (N : Int) (ops : List Op) (c1 : MemoryCache)
    (h : (NewMemoryCache N).steps ops = some c1) :
    (0 < N → c1.Length ≤ N) ∧
    (N = 0 → ∀ (wall : Int) (key : String) (msg : Option Msg),
      (c1.Set wall key msg).2 = none) := by
  constructor
  · intro hN
    exact steps_Length_le ops (NewMemoryCache N) c1 h (by show N ≠ 0; omega)
      (by show ((0 : Nat) : Int) ≤ N; omega)
  · intro hN wall key msg
    have hm : c1.Maxcount = 0 := by
      rw [steps_Maxcount ops _ c1 h]; exact hN
    have hf : c1.Full = false := by
      unfold MemoryCache.Full
      rw [if_pos hm]
    rw [Set_of_not_full c1 wall key msg hf]

/-- Witness of C6: a cache of one entry after two `Set`s, a `Get`, a sweep and a
`Remove` holds one entry; an unbounded cache accepts a second key. -/
theorem size_invariant_witness :
    (NewMemoryCache 1).steps
      [Op.Set 0 "a." (some (exampleMsg 0 [60])), Op.Set 0 "b." (some (exampleMsg 0 [60])),
       Op.Get 1000000000 "a.", Op.Length, Op.Sweep 2000000000, Op.Exists "a.",
       Op.Remove "b."] =
      some exampleStore ∧
    exampleStore.Length ≤ 1 ∧
    (((NewMemoryCache 0).Set 0 "a." none).1.Set 0 "b." none).2 = none :=
  ⟨rfl, (size_invariant 1
      [Op.Set 0 "a." (some (exampleMsg 0 [60])), Op.Set 0 "b." (some (exampleMsg 0 [60])),
       Op.Get 1000000000 "a.", Op.Length, Op.Sweep 2000000000, Op.Exists "a.",
       Op.Remove "b."] _ rfl).1 (by decide),
    (size_invariant 0 [Op.Set 0 "a." none] _ rfl).2 rfl 0 "b." none⟩

/-- C7, as stated, fails. On the empty cache with `Maxcount = -1`, `Set` on a new
key returns `CacheIsFull` although `Maxcount > 0` is false: `Full` only sets
`Maxcount = 0` apart, and `Length >= Maxcount` holds for every negative bound. -/
theorem set_full_with_negative_maxcount :
    ¬ (((NewMemoryCache (-1)).Set 0 "example.com." (some (exampleMsg 0 [60]))).2 =
          some CacheError.CacheIsFull ↔
        ((NewMemoryCache (-1)).Maxcount > 0 ∧
          (NewMemoryCache (-1)).Length ≥ (NewMemoryCache (-1)).Maxcount ∧
          (NewMemoryCache (-1)).Backend.lookup (toLower "example.com.") = none)) := by
  decide

/-- C7, amended. `Set` returns `CacheIsFull` if and only if `Maxcount` is not 0, the
number of entries is at least `Maxcount` and the lower-cased key is not present; the
store is then left as it is. In every other case `Set` returns no error, the store
maps the lower-cased key to the message and the truncated current time, and every
other entry and the bound are as before. -/
theorem set_full_iff (c : MemoryCache) (wall : Int) (key : String) (msg : Option Msg) :
    ((c.Set wall key msg).2 = some CacheError.CacheIsFull ↔
      (c.Maxcount ≠ 0 ∧ c.Length ≥ c.Maxcount ∧ c.Backend.lookup (toLower key) = none)) ∧
    ((c.Set wall key msg).2 = some CacheError.CacheIsFull → (c.Set wall key msg).1 = c) ∧
    ((c.Set wall key msg).2 ≠ some CacheError.CacheIsFull →
      (c.Set wall key msg).2 = none ∧
      (c.Set wall key msg).1.Backend.lookup (toLower key) =
        some { Msg := msg, LastUpdateTime := nowTruncated wall } ∧
      (∀ a, a ≠ toLower key →
        (c.Set wall key msg).1.Backend.lookup a = c.Backend.lookup a) ∧
      (c.Set wall key msg).1.Maxcount = c.Maxcount) := by
  have hfull : c.Full = true ↔ (c.Maxcount ≠ 0 ∧ c.Length ≥ c.Maxcount) := by
    unfold MemoryCache.Full
    by_cases h0 : c.Maxcount = 0
    · simp [h0]
    · simp [h0]
  have hex : c.Exists key = false ↔ c.Backend.lookup (toLower key) = none := by
    rw [Exists_eq_false_iff, AList.lookup_eq_none]
  cases hf : c.Full with
  | false =>
    have hs := Set_of_not_full c wall key msg hf
    have hn : ¬ (c.Maxcount ≠ 0 ∧ c.Length ≥ c.Maxcount) := by
      rw [← hfull, hf]; simp
    refine ⟨?_, ?_, ?_⟩
    · rw [hs]
      constructor
      · intro h; simp at h
      · intro h; exact absurd ⟨h.1, h.2.1⟩ hn
    · rw [hs]; intro h; simp at h
    · intro _
      have h2 : (c.Set wall key msg).2 = none := by rw [hs]
      exact ⟨h2, Set_lookup_self c wall key msg h2,
        fun a ha => Set_lookup_ne c wall key msg a ha, Set_Maxcount c wall key msg⟩
  | true =>
    cases he : c.Exists key with
    | false =>
      have hs := Set_of_full_new c wall key msg hf he
      refine ⟨?_, ?_, ?_⟩
      · rw [hs]
        constructor
        · intro _
          exact ⟨(hfull.mp hf).1, (hfull.mp hf).2, hex.mp he⟩
        · intro _; rfl
      · intro _; rw [hs]
      · rw [hs]; intro h; exact absurd rfl h
    | true =>
      have hs := Set_of_exists c wall key msg he
      have hn : ¬ c.Backend.lookup (toLower key) = none := by
        rw [← hex, he]; simp
      refine ⟨?_, ?_, ?_⟩
      · rw [hs]
        constructor
        · intro h; simp at h
        · intro h; exact absurd h.2.2 hn
      · rw [hs]; intro h; simp at h
      · intro _
        have h2 : (c.Set wall key msg).2 = none := by rw [hs]
        exact ⟨h2, Set_lookup_self c wall key msg h2,
          fun a ha => Set_lookup_ne c wall key msg a ha, Set_Maxcount c wall key msg⟩

/-- Witness of the amended C7: a full cache of one entry refuses a new key and
takes the key it holds. -/
theorem set_full_iff_witness :
    (exampleStore.Set 5000000000 "b." none).1 = exampleStore ∧
    (exampleStore.Set 5000000000 "A." none).1.Backend.lookup (toLower "A.") =
      some { Msg := none, LastUpdateTime := nowTruncated 5000000000 } :=
  ⟨(set_full_iff exampleStore 5000000000 "b." none).2.1 (by decide),
    ((set_full_iff exampleStore 5000000000 "A." none).2.2 (by decide)).2.1⟩

/-- C8. `Get` miss and purge of an empty payload: on a key whose lower-cased form is
absent, `Get` returns `KeyNotFound` and the store as it was; on a key whose entry
has a nil payload, `Get` returns `KeyNotFound`, `Exists` on the key is false
afterwards, `Length` is one less and every other entry is as before. The error `Get`
returns is never another one than `KeyNotFound` or `KeyExpired`, and it comes with a
nil message. -/
theorem get_miss_and_purge (c : MemoryCache) (wall : Int) (key : String) :
    (c.Backend.lookup (toLower key) = none →
      c.Get wall key = (c, none, some (CacheError.KeyNotFound (toLower key)))) ∧
    (∀ last : Int,
      c.Backend.lookup (toLower key) = some { Msg := none, LastUpdateTime := last } →
      (c.Get wall key).2 = (none, some (CacheError.KeyNotFound (toLower key))) ∧
      (c.Get wall key).1.Exists key = false ∧
      (c.Get wall key).1.Length = c.Length - 1 ∧
      (∀ a, a ≠ toLower key → (c.Get wall key).1.Backend.lookup a = c.Backend.lookup a)) ∧
    (∀ e, (c.Get wall key).2.2 = some e →
      (e = CacheError.KeyNotFound (toLower key) ∨ e = CacheError.KeyExpired (toLower key)) ∧
      (c.Get wall key).2.1 = none) := by
  refine ⟨Get_of_lookup_none c wall key, ?_, ?_⟩
  · intro last hl
    have hmem : toLower key ∈ c.Backend := mem_of_lookup_eq_some hl
    rw [Get_of_nil c wall key last hl]
    refine ⟨rfl, ?_, ?_, ?_⟩
    · simp [MemoryCache.Exists, MemoryCache.Remove, toLower_idem]
    · unfold MemoryCache.Remove MemoryCache.Length
      rw [toLower_idem]
      show ((AList.erase _ _).keys.length : Int) = _
      rw [length_keys_erase_of_mem hmem]
      have := List.length_pos_of_mem (AList.mem_keys.mp hmem)
      omega
    · intro a ha
      exact Remove_lookup_ne c _ a (by rw [toLower_idem]; exact ha)
  · intro e he
    cases hl : c.Backend.lookup (toLower key) with
    | none =>
      rw [Get_of_lookup_none c wall key hl] at he ⊢
      simp only [Option.some.injEq] at he
      exact ⟨Or.inl he.symm, rfl⟩
    | some mesg =>
      rcases mesg with ⟨m, last⟩
      cases m with
      | none =>
        rw [Get_of_nil c wall key last hl] at he ⊢
        simp only [Option.some.injEq] at he
        exact ⟨Or.inl he.symm, rfl⟩
      | some msg =>
        cases ha : ageAnswers (elapsedSince (nowTruncated wall) last) msg.Answer with
        | none =>
          rw [Get_of_expired c wall key msg last hl ha] at he ⊢
          simp only [Option.some.injEq] at he
          exact ⟨Or.inr he.symm, rfl⟩
        | some aged =>
          rw [Get_of_aged c wall key msg last aged hl ha] at he
          simp at he

/-- Witness of C8: a miss on the empty cache, and the purge of an entry set with a
nil message. -/
theorem get_miss_and_purge_witness :
    (NewMemoryCache 0).Get 0 "Example.com." =
      (NewMemoryCache 0, none, some (CacheError.KeyNotFound (toLower "Example.com."))) ∧
    ((exampleStore.Set 0 "A." none).1.Get 7000000000 "a.").2 =
      (none, some (CacheError.KeyNotFound (toLower "a."))) ∧
    ((exampleStore.Set 0 "A." none).1.Get 7000000000 "a.").1.Length =
      (exampleStore.Set 0 "A." none).1.Length - 1 :=
  ⟨(get_miss_and_purge (NewMemoryCache 0) 0 "Example.com.").1 (by decide),
    ((get_miss_and_purge (exampleStore.Set 0 "A." none).1 7000000000 "a.").2.1 0
      (by decide)).1,
    ((get_miss_and_purge (exampleStore.Set 0 "A." none).1 7000000000 "a.").2.1 0
      (by decide)).2.2.1⟩

/-! ## The claims on the failover writer -/

/-- C9. Failover passthrough: when the response `m` has no question, or no fallback
server is configured, or the response code of `m` is not server failure, or its
recursion-desired flag is unset, `WriteMsg` makes no exchange, hands exactly `m` to
the wrapped writer, and returns what the wrapped writer returns. -/
theorem writeMsg_passthrough (env : Env) (w : ResponseWriter) (m : Msg)
    (h : m.Question = [] ∨ w.f.servers = [] ∨ m.Rcode ≠ RcodeServerFailure ∨
      m.RecursionDesired = false) :
    w.WriteMsg env m = ([Event.Write m, Event.Release], w.Inner m) := by
  unfold ResponseWriter.WriteMsg
  by_cases h1 : m.Question.length = 0 ∨ w.f.servers.length = 0
  · simp only [if_pos h1, List.singleton_append]
  · by_cases h2 : m.Rcode ≠ RcodeServerFailure ∨ m.RecursionDesired = false
    · simp only [if_neg h1, if_pos h2, List.singleton_append]
    · exfalso
      rcases h with h | h | h | h
      · exact h1 (Or.inl (by rw [h]; rfl))
      · exact h1 (Or.inr (by rw [h]; rfl))
      · exact h2 (Or.inl h)
      · exact h2 (Or.inr h)

/-- Witness of C9: a response with a success code passes, whatever the servers. -/
theorem writeMsg_passthrough_witness :
    (exampleWriter ["192.0.2.53:53"]).WriteMsg exampleEnv (exampleMsg 0 [60]) =
      ([Event.Write (exampleMsg 0 [60]), Event.Release],
        (exampleWriter ["192.0.2.53:53"]).Inner (exampleMsg 0 [60])) :=
  writeMsg_passthrough exampleEnv (exampleWriter ["192.0.2.53:53"]) (exampleMsg 0 [60])
    (Or.inr (Or.inr (Or.inl (by decide))))

theorem exchangeLoop_first_success (env : Env) (w : ResponseWriter) (m req : Msg) :
    ∀ (servers : List String) (n : Nat),
      (∃ i s resp, servers[i]? = some s ∧ env.Exchange (n + i) req s = Except.ok resp) →
      ∃ pre s post resp, servers = pre ++ s :: post ∧
        (∀ i t, pre[i]? = some t → ∃ err, env.Exchange (n + i) req t = Except.error err) ∧
        env.Exchange (n + pre.length) req s = Except.ok resp ∧
        exchangeLoop env w m req n servers =
          (pre.map (Event.Exchange req) ++
            [Event.Exchange req s, Event.Write { resp with Id := m.Id }],
            w.Inner { resp with Id := m.Id })
  | [], _, h => by
    obtain ⟨i, s, resp, hs, _⟩ := h
    simp at hs
  | server :: rest, n, h => by
    cases hx : env.Exchange n req server with
    | ok resp =>
      refine ⟨[], server, rest, resp, rfl, ?_, by simpa using hx, ?_⟩
      · intro i t ht; simp at ht
      · simp only [exchangeLoop, hx, List.map_nil, List.nil_append]
    | error err =>
      obtain ⟨i, s, resp, hs, hok⟩ := h
      cases i with
      | zero =>
        simp only [List.getElem?_cons_zero, Option.some.injEq] at hs
        rw [← hs, Nat.add_zero, hx] at hok
        cases hok
      | succ j =>
        simp only [List.getElem?_cons_succ] at hs
        have hok1 : env.Exchange (n + 1 + j) req s = Except.ok resp := by
          rw [← hok]; congr 1; omega
        obtain ⟨pre, s1, post, resp1, e1, e2, e3, e4⟩ :=
          exchangeLoop_first_success env w m req rest (n + 1) ⟨j, s, resp, hs, hok1⟩
        refine ⟨server :: pre, s1, post, resp1, by rw [e1]; rfl, ?_, ?_, ?_⟩
        · intro i t ht
          cases i with
          | zero =>
            simp only [List.getElem?_cons_zero, Option.some.injEq] at ht
            exact ⟨err, by rw [← ht]; exact hx⟩
          | succ k =>
            simp only [List.getElem?_cons_succ] at ht
            obtain ⟨err1, he⟩ := e2 k t ht
            exact ⟨err1, by rw [← he]; congr 1; omega⟩
        · rw [← e3]; congr 1; simp only [List.length_cons]; omega
        · simp only [exchangeLoop, hx, e4, List.map_cons, List.cons_append]

/-- C10. Failover substitution, first success wins: when the response `m` has a
question `q` first, the response code server failure and recursion desired, and the
exchange with some configured server, reached in its turn, completes without error,
then the server list splits as `pre ++ s :: post` where the exchange with every
server of `pre` fails and that with `s` returns `resp`; `WriteMsg` makes the
exchanges with `pre`, in order, then with `s`, makes none with `post`, hands the
wrapped writer one message, `resp` with its identifier replaced by that of `m`, and
returns what the wrapped writer returns. -/
theorem writeMsg_first_success (env : Env) (w : ResponseWriter) (m : Msg) (q : Question)
    (qs : List Question) (hq : m.Question = q :: qs)
    (hrc : m.Rcode = RcodeServerFailure) (hrd : m.RecursionDesired = true)
    (hok : ∃ i s resp, w.f.servers[i]? = some s ∧
      env.Exchange i (retryRequest env m q) s = Except.ok resp) :
    ∃ pre s post resp, w.f.servers = pre ++ s :: post ∧
      (∀ i t, pre[i]? = some t →
        ∃ err, env.Exchange i (retryRequest env m q) t = Except.error err) ∧
      env.Exchange pre.length (retryRequest env m q) s = Except.ok resp ∧
      w.WriteMsg env m =
        (pre.map (Event.Exchange (retryRequest env m q)) ++
          [Event.Exchange (retryRequest env m q) s, Event.Write { resp with Id := m.Id },
            Event.Release],
          w.Inner { resp with Id := m.Id }) := by
  obtain ⟨pre, s, post, resp, e1, e2, e3, e4⟩ :=
    exchangeLoop_first_success env w m (retryRequest env m q) w.f.servers 0
      (by simpa using hok)
  refine ⟨pre, s, post, resp, e1, by simpa using e2, by simpa using e3, ?_⟩
  have h1 : ¬ (m.Question.length = 0 ∨ w.f.servers.length = 0) := by
    rw [hq, e1]; simp
  have h2 : ¬ (m.Rcode ≠ RcodeServerFailure ∨ m.RecursionDesired = false) := by
    rw [hrc, hrd]; simp
  unfold ResponseWriter.WriteMsg
  simp only [if_neg h1, if_neg h2]
  simp only [hq, e4, List.append_assoc, List.cons_append, List.nil_append]

/-- Witness of C10: the first server times out, the second answers, the third is not
asked. -/
theorem writeMsg_first_success_witness :
    (∃ pre s post resp,
      (exampleWriter ["192.0.2.1:53", "192.0.2.53:53", "192.0.2.2:53"]).f.servers =
        pre ++ s :: post ∧
      (∀ i t, pre[i]? = some t → ∃ err, exampleEnv.Exchange i
        (retryRequest exampleEnv (exampleMsg 2 []) { Name := "example.com.", Qtype := 1, Qclass := 1 })
        t = Except.error err) ∧
      exampleEnv.Exchange pre.length
        (retryRequest exampleEnv (exampleMsg 2 []) { Name := "example.com.", Qtype := 1, Qclass := 1 })
        s = Except.ok resp ∧
      (exampleWriter ["192.0.2.1:53", "192.0.2.53:53", "192.0.2.2:53"]).WriteMsg exampleEnv
          (exampleMsg 2 []) =
        (pre.map (Event.Exchange
          (retryRequest exampleEnv (exampleMsg 2 []) { Name := "example.com.", Qtype := 1, Qclass := 1 })) ++
          [Event.Exchange
            (retryRequest exampleEnv (exampleMsg 2 []) { Name := "example.com.", Qtype := 1, Qclass := 1 }) s,
            Event.Write { resp with Id := (exampleMsg 2 []).Id }, Event.Release],
          (exampleWriter ["192.0.2.1:53", "192.0.2.53:53", "192.0.2.2:53"]).Inner
            { resp with Id := (exampleMsg 2 []).Id })) ∧
    ((exampleWriter ["192.0.2.1:53", "192.0.2.53:53", "192.0.2.2:53"]).WriteMsg exampleEnv
        (exampleMsg 2 [])).1 =
      [Event.Exchange
          (retryRequest exampleEnv (exampleMsg 2 []) { Name := "example.com.", Qtype := 1, Qclass := 1 })
          "192.0.2.1:53",
        Event.Exchange
          (retryRequest exampleEnv (exampleMsg 2 []) { Name := "example.com.", Qtype := 1, Qclass := 1 })
          "192.0.2.53:53",
        Event.Write (exampleMsg 0 [300]), Event.Release] :=
  ⟨writeMsg_first_success exampleEnv
      (exampleWriter ["192.0.2.1:53", "192.0.2.53:53", "192.0.2.2:53"]) (exampleMsg 2 [])
      { Name := "example.com.", Qtype := 1, Qclass := 1 } [] rfl rfl rfl
      ⟨1, "192.0.2.53:53", { exampleMsg 0 [300] with Id := 999 }, rfl, rfl⟩,
    by decide⟩

theorem exchangeLoop_all_fail (env : Env) (w : ResponseWriter) (m req : Msg) :
    ∀ (servers : List String) (n : Nat),
      (∀ i s, servers[i]? = some s → ∃ err, env.Exchange (n + i) req s = Except.error err) →
      exchangeLoop env w m req n servers =
        (servers.map (Event.Exchange req) ++ [Event.Write m], w.Inner m)
  | [], _, _ => rfl
  | server :: rest, n, h => by
    obtain ⟨err, he⟩ := h 0 server (by simp)
    have ih := exchangeLoop_all_fail env w m req rest (n + 1) (fun i s hs => by
      obtain ⟨e, hx⟩ := h (i + 1) s (by simpa using hs)
      exact ⟨e, by rw [← hx]; congr 1; omega⟩)
    rw [Nat.add_zero] at he
    simp only [exchangeLoop, he, ih, List.map_cons, List.cons_append]

/-- C11. Failover exhaustion: when the response `m` has a question `q` first, the
response code server failure and recursion desired, the server list is not empty and
the exchange with every configured server fails, `WriteMsg` makes one exchange with
each server, in configured order, then hands the wrapped writer `m` itself, and
returns what the wrapped writer returns. -/
theorem writeMsg_exhaustion (env : Env) (w : ResponseWriter) (m : Msg) (q : Question)
    (qs : List Question) (hq : m.Question = q :: qs)
    (hrc : m.Rcode = RcodeServerFailure) (hrd : m.RecursionDesired = true)
    (hs : w.f.servers ≠ [])
    (hfail : ∀ i s, w.f.servers[i]? = some s →
      ∃ err, env.Exchange i (retryRequest env m q) s = Except.error err) :
    w.WriteMsg env m =
      (w.f.servers.map (Event.Exchange (retryRequest env m q)) ++
        [Event.Write m, Event.Release], w.Inner m) := by
  have e4 := exchangeLoop_all_fail env w m (retryRequest env m q) w.f.servers 0
    (by simpa using hfail)
  have h1 : ¬ (m.Question.length = 0 ∨ w.f.servers.length = 0) := by
    rw [hq]
    simp [hs]
  have h2 : ¬ (m.Rcode ≠ RcodeServerFailure ∨ m.RecursionDesired = false) := by
    rw [hrc, hrd]; simp
  unfold ResponseWriter.WriteMsg
  simp only [if_neg h1, if_neg h2]
  simp only [hq, e4, List.append_assoc, List.cons_append, List.nil_append]

/-- Witness of C11: two servers that both time out. -/
theorem writeMsg_exhaustion_witness :
    (exampleWriter ["192.0.2.1:53", "192.0.2.2:53"]).WriteMsg exampleEnv (exampleMsg 2 []) =
      ((exampleWriter ["192.0.2.1:53", "192.0.2.2:53"]).f.servers.map
          (Event.Exchange (retryRequest exampleEnv (exampleMsg 2 [])
            { Name := "example.com.", Qtype := 1, Qclass := 1 })) ++
        [Event.Write (exampleMsg 2 []), Event.Release],
        (exampleWriter ["192.0.2.1:53", "192.0.2.2:53"]).Inner (exampleMsg 2 [])) :=
  writeMsg_exhaustion exampleEnv (exampleWriter ["192.0.2.1:53", "192.0.2.2:53"])
    (exampleMsg 2 []) { Name := "example.com.", Qtype := 1, Qclass := 1 } [] rfl rfl rfl
    (by decide)
    (fun i s hs => by
      have hne : s ≠ "192.0.2.53:53" := by
        intro e
        subst e
        rcases i with _ | _ | i <;> simp [exampleWriter] at hs
      exact ⟨"i/o timeout", by simp [exampleEnv, hne]⟩)

/-! ## More claims on the cache -/

theorem erase_of_not_mem {a : String} {s : AList (fun _ : String => Mesg)} (h : a ∉ s) :
    s.erase a = s := by
  apply AList.ext
  exact List.kerase_of_not_mem_keys (fun hk => h (AList.mem_keys.mpr hk))

/-- C13. `Remove` is an idempotent delete: it returns no error (it is a total
function of the store and the key); after it `Exists` on the key is false; on a key
that is absent it leaves the store as it was; applied twice it yields the store it
yields applied once; and it leaves every entry under another lower-cased key, and
the bound, as they were. -/
theorem remove_idempotent (c : MemoryCache) (key : String) :
    (c.Remove key).Exists key = false ∧
    (c.Exists key = false → c.Remove key = c) ∧
    (c.Remove key).Remove key = c.Remove key ∧
    (∀ a, a ≠ toLower key → (c.Remove key).Backend.lookup a = c.Backend.lookup a) ∧
    (c.Remove key).Maxcount = c.Maxcount := by
  have h1 : (c.Remove key).Exists key = false := by
    simp [MemoryCache.Exists, MemoryCache.Remove]
  refine ⟨h1, ?_, ?_, fun a ha => Remove_lookup_ne c key a ha, rfl⟩
  · intro h
    have hm : toLower key ∉ c.Backend := (Exists_eq_false_iff c key).mp h
    unfold MemoryCache.Remove
    rw [erase_of_not_mem hm]
  · have hm : toLower key ∉ (c.Remove key).Backend := (Exists_eq_false_iff _ key).mp h1
    show ({ (c.Remove key) with Backend := (c.Remove key).Backend.erase (toLower key) } :
      MemoryCache) = c.Remove key
    rw [erase_of_not_mem hm]

/-- Witness of C13: removing a key the store does not hold leaves the store. -/
theorem remove_idempotent_witness : exampleStore.Remove "B." = exampleStore :=
  (remove_idempotent exampleStore "B.").2.1 (by decide)

/-! ## Lemmas on the sweep -/

theorem runEntry_of_some (wall : Int) (b : AList (fun _ : String => Mesg)) (key : String)
    (mesg : Mesg) (msg : Msg) (h : mesg.Msg = some msg) :
    runEntry wall b key mesg = some (if expiredAt wall mesg then b.erase key else b) := by
  unfold runEntry expiredAt
  simp only [h, Option.isNone_some, Bool.false_eq_true, if_false]
  split <;> rfl

theorem runEntry_of_none (wall : Int) (b : AList (fun _ : String => Mesg)) (key : String)
    (mesg : Mesg) (h : mesg.Msg = none) : runEntry wall b key mesg = none := by
  unfold runEntry
  simp only [h]

theorem runEntries_eq_none (wall : Int) :
    ∀ (es : List (Sigma (fun _ : String => Mesg))) (b : AList (fun _ : String => Mesg)),
      (∃ e ∈ es, e.2.Msg = none) → runEntries wall es b = none
  | [], _, h => by
    obtain ⟨e, he, _⟩ := h
    simp at he
  | e :: rest, b, h => by
    cases hm : e.2.Msg with
    | none => simp only [runEntries, runEntry_of_none wall b e.1 e.2 hm]
    | some msg =>
      have hr : ∃ x ∈ rest, x.2.Msg = none := by
        obtain ⟨x, hx, hn⟩ := h
        rcases List.mem_cons.mp hx with hx | hx
        · subst hx; rw [hm] at hn; cases hn
        · exact ⟨x, hx, hn⟩
      simp only [runEntries, runEntry_of_some wall b e.1 e.2 msg hm]
      exact runEntries_eq_none wall rest _ hr

theorem runEntries_lookup (wall : Int) (k : String) :
    ∀ (es : List (Sigma (fun _ : String => Mesg))) (b b1 : AList (fun _ : String => Mesg)),
      runEntries wall es b = some b1 →
      b1.lookup k = if (∃ e ∈ es, e.1 = k ∧ expiredAt wall e.2 = true) then none
        else b.lookup k
  | [], b, b1, h => by
    simp only [runEntries, Option.some.injEq] at h
    simp [h]
  | e :: rest, b, b1, h => by
    cases hm : e.2.Msg with
    | none =>
      simp only [runEntries, runEntry_of_none wall b e.1 e.2 hm] at h
      cases h
    | some msg =>
      simp only [runEntries, runEntry_of_some wall b e.1 e.2 msg hm] at h
      have ih := runEntries_lookup wall k rest _ b1 h
      rw [ih]
      by_cases hr : ∃ x ∈ rest, x.1 = k ∧ expiredAt wall x.2 = true
      · have hc : ∃ x ∈ e :: rest, x.1 = k ∧ expiredAt wall x.2 = true := by
          obtain ⟨x, hx, hp⟩ := hr
          exact ⟨x, List.mem_cons_of_mem _ hx, hp⟩
        rw [if_pos hr, if_pos hc]
      · rw [if_neg hr]
        by_cases he : e.1 = k ∧ expiredAt wall e.2 = true
        · have hc : ∃ x ∈ e :: rest, x.1 = k ∧ expiredAt wall x.2 = true :=
            ⟨e, List.mem_cons_self _ _, he⟩
          rw [if_pos hc, if_pos he.2, ← he.1]
          exact AList.lookup_erase _ _
        · have hc : ¬ ∃ x ∈ e :: rest, x.1 = k ∧ expiredAt wall x.2 = true := by
            rintro ⟨x, hx, hp⟩
            rcases List.mem_cons.mp hx with hx | hx
            · subst hx; exact he hp
            · exact hr ⟨x, hx, hp⟩
          rw [if_neg hc]
          by_cases hx : expiredAt wall e.2 = true
          · rw [if_pos hx]
            have hne : k ≠ e.1 := fun hk => he ⟨hk.symm, hx⟩
            exact AList.lookup_erase_ne hne
          · rw [if_neg hx]

theorem runEntries_isSome (wall : Int) :
    ∀ (es : List (Sigma (fun _ : String => Mesg))) (b : AList (fun _ : String => Mesg)),
      (∀ e ∈ es, e.2.Msg ≠ none) → ∃ b1, runEntries wall es b = some b1
  | [], b, _ => ⟨b, rfl⟩
  | e :: rest, b, h => by
    cases hm : e.2.Msg with
    | none => exact absurd hm (h e (List.mem_cons_self _ _))
    | some msg =>
      simp only [runEntries, runEntry_of_some wall b e.1 e.2 msg hm]
      exact runEntries_isSome wall rest _ (fun x hx => h x (List.mem_cons_of_mem _ hx))

theorem mem_entries_iff_lookup (s : AList (fun _ : String => Mesg)) (k : String) (m : Mesg) :
    (⟨k, m⟩ : Sigma (fun _ : String => Mesg)) ∈ s.entries ↔ s.lookup k = some m := by
  rw [← AList.mem_lookup_iff]
  exact Option.mem_def

/-- What one sweep leaves under each key, when it runs to its end. -/
theorem runTick_lookup (c c1 : MemoryCache) (wall : Int) (k : String)
    (h : c.runTick wall = some c1) :
    c1.Maxcount = c.Maxcount ∧
    c1.Backend.lookup k =
      match c.Backend.lookup k with
      | none => none
      | some mesg => if expiredAt wall mesg then none else some mesg := by
  unfold MemoryCache.runTick at h
  split at h
  · cases h
  · rename_i b hb
    cases h
    refine ⟨rfl, ?_⟩
    show b.lookup k = _
    rw [runEntries_lookup wall k _ _ b hb]
    cases hl : c.Backend.lookup k with
    | none =>
      simp only [ite_eq_right_iff]
      intro _; trivial
    | some mesg =>
      have hmem := (mem_entries_iff_lookup c.Backend k mesg).mpr hl
      by_cases hx : expiredAt wall mesg = true
      · have hc : ∃ e ∈ c.Backend.entries, e.1 = k ∧ expiredAt wall e.2 = true :=
          ⟨⟨k, mesg⟩, hmem, rfl, hx⟩
        simp only [if_pos hc, hx, if_true]
      · have hc : ¬ ∃ e ∈ c.Backend.entries, e.1 = k ∧ expiredAt wall e.2 = true := by
          rintro ⟨⟨k1, m1⟩, he, hk, hp⟩
          simp only at hk
          subst hk
          have := (mem_entries_iff_lookup c.Backend k1 m1).mp he
          rw [hl] at this
          cases this
          exact hx hp
        simp only [if_neg hc, hx]
        simp

theorem runTick_eq_none_of_nil (c : MemoryCache) (wall : Int)
    (h : ∃ e ∈ c.Backend.entries, e.2.Msg = none) : c.runTick wall = none := by
  unfold MemoryCache.runTick
  rw [runEntries_eq_none wall _ _ h]

/-- C12, the code at the failing input. `Set` with a nil message returns no error and
leaves an entry with a nil payload; the next sweep deletes the entry and then reads
`mesg.Msg.Answer` through the nil pointer, which ends the process: the pass does not
complete. -/
theorem sweep_nil_payload_ends_process :
    ((NewMemoryCache 0).Set 0 "Example.com." none).2 = none ∧
    nilPayloadStore.Backend.lookup "example.com." =
      some { Msg := none, LastUpdateTime := 0 } ∧
    nilPayloadStore.runTick 3600000000000 = none := by
  refine ⟨by decide, by decide, ?_⟩
  exact runTick_eq_none_of_nil _ _
    ⟨⟨"example.com.", { Msg := none, LastUpdateTime := 0 }⟩, by decide, rfl⟩

theorem expiredAt_of_answer_nil (wall : Int) (msg : Msg) (last : Int) (h : msg.Answer = []) :
    expiredAt wall { Msg := some msg, LastUpdateTime := last } = false := by
  simp [expiredAt, h]

theorem Get_of_answer_nil (c : MemoryCache) (wall : Int) (key : String) (msg : Msg)
    (last : Int)
    (hl : c.Backend.lookup (toLower key) = some { Msg := some msg, LastUpdateTime := last })
    (ha : msg.Answer = []) :
    (c.Get wall key).2 = (some msg, none) ∧
    (c.Get wall key).1.Backend.lookup (toLower key) =
      some { Msg := some msg, LastUpdateTime := nowTruncated wall } := by
  have hage : ageAnswers (elapsedSince (nowTruncated wall) last) msg.Answer = some [] := by
    rw [ha]; rfl
  have hm : ({ msg with Answer := [] } : Msg) = msg := by
    cases msg
    simp only at ha
    subst ha
    rfl
  rw [Get_of_aged c wall key msg last [] hl hage, hm]
  exact ⟨rfl, lookup_replace_self _ _ (mem_of_lookup_eq_some hl)⟩

theorem Get_congr_key (c : MemoryCache) (wall : Int) (k k' : String)
    (h : toLower k' = toLower k) : c.Get wall k' = c.Get wall k := by
  unfold MemoryCache.Get; rw [h]

theorem steps_keep_no_answer (key : String) (msg : Msg) (ha : msg.Answer = []) :
    ∀ (ops : List Op) (c c1 : MemoryCache) (last : Int),
      c.Backend.lookup (toLower key) = some { Msg := some msg, LastUpdateTime := last } →
      c.steps ops = some c1 → (∀ op ∈ ops, op.removesOrSets key = false) →
      ∃ last1, c1.Backend.lookup (toLower key) =
        some { Msg := some msg, LastUpdateTime := last1 }
  | [], c, c1, last, hl, hs, _ => by
    simp only [MemoryCache.steps, Option.some.injEq] at hs
    exact ⟨last, by rw [← hs]; exact hl⟩
  | op :: ops, c, c1, last, hl, hs, hno => by
    simp only [MemoryCache.steps] at hs
    split at hs
    · cases hs
    · rename_i c2 h2
      have hop := hno op (List.mem_cons_self _ _)
      have hrest : ∀ o ∈ ops, o.removesOrSets key = false :=
        fun o ho => hno o (List.mem_cons_of_mem _ ho)
      have hl2 : ∃ last2, c2.Backend.lookup (toLower key) =
          some { Msg := some msg, LastUpdateTime := last2 } := by
        cases op with
        | Set wall k m =>
          have hk : toLower key ≠ toLower k := by
            intro e; simp [Op.removesOrSets, e] at hop
          cases h2
          exact ⟨last, by rw [Set_lookup_ne c wall k m _ hk]; exact hl⟩
        | Get wall k =>
          cases h2
          by_cases hk : toLower k = toLower key
          · rw [Get_congr_key c wall key k hk]
            exact ⟨_, (Get_of_answer_nil c wall key msg last hl ha).2⟩
          · exact ⟨last, by rw [Get_lookup_ne c wall k _ (Ne.symm hk)]; exact hl⟩
        | Remove k =>
          have hk : toLower key ≠ toLower k := by
            intro e; simp [Op.removesOrSets, e] at hop
          cases h2
          exact ⟨last, by rw [Remove_lookup_ne c k _ hk]; exact hl⟩
        | Exists k => cases h2; exact ⟨last, hl⟩
        | Length => cases h2; exact ⟨last, hl⟩
        | Sweep wall =>
          have h3 := (runTick_lookup c c2 wall (toLower key) h2).2
          rw [hl] at h3
          simp only [expiredAt_of_answer_nil wall msg last ha, Bool.false_eq_true,
            if_false] at h3
          exact ⟨last, h3⟩
      obtain ⟨last2, hl2⟩ := hl2
      exact steps_keep_no_answer key msg ha ops c2 c1 last2 hl2 hs hrest

/-- C20. Entries with no answer records never expire. Let the entry of `key` hold a
message that is not nil and has no answer record. Then every `Get` on the key, at any
clock reading, returns the message and no error, sets the entry's `LastUpdateTime`
and leaves every other entry and the bound as they were; every sweep that runs to
its end leaves the entry as it was; and after any operations none of which is a
`Remove` or a `Set` on the key, the entry still holds the message. -/
theorem no_answer_never_expires (c : MemoryCache) (key : String) (msg : Msg) (last : Int)
    (hl : c.Backend.lookup (toLower key) = some { Msg := some msg, LastUpdateTime := last })
    (ha : msg.Answer = []) :
    (∀ wall : Int,
      (c.Get wall key).2 = (some msg, none) ∧
      (c.Get wall key).1.Backend.lookup (toLower key) =
        some { Msg := some msg, LastUpdateTime := nowTruncated wall } ∧
      (∀ a, a ≠ toLower key → (c.Get wall key).1.Backend.lookup a = c.Backend.lookup a) ∧
      (c.Get wall key).1.Maxcount = c.Maxcount) ∧
    (∀ (wall : Int) (c1 : MemoryCache), c.runTick wall = some c1 →
      c1.Backend.lookup (toLower key) = some { Msg := some msg, LastUpdateTime := last }) ∧
    (∀ (ops : List Op) (c1 : MemoryCache), c.steps ops = some c1 →
      (∀ op ∈ ops, op.removesOrSets key = false) →
      ∃ last1, c1.Backend.lookup (toLower key) =
        some { Msg := some msg, LastUpdateTime := last1 }) := by
  refine ⟨?_, ?_, ?_⟩
  · intro wall
    have h := Get_of_answer_nil c wall key msg last hl ha
    exact ⟨h.1, h.2, fun a hne => Get_lookup_ne c wall key a hne, Get_Maxcount c wall key⟩
  · intro wall c1 h
    have h3 := (runTick_lookup c c1 wall (toLower key) h).2
    rw [hl] at h3
    simpa only [expiredAt_of_answer_nil wall msg last ha, Bool.false_eq_true,
      if_false] using h3
  · intro ops c1 hs hno
    exact steps_keep_no_answer key msg ha ops c c1 last hl hs hno

/-- Witness of C20: an entry without answer records, read and swept after a hundred
years. -/
theorem no_answer_never_expires_witness :
    (((NewMemoryCache 0).Set 0 "example.com." (some (exampleMsg 3 []))).1.Get
        3155760000000000000 "Example.com.").2 = (some (exampleMsg 3 []), none) ∧
    (((NewMemoryCache 0).Set 0 "example.com." (some (exampleMsg 3 []))).1.steps
        [Op.Sweep 3155760000000000000, Op.Get 3155760000000000000 "example.com."] =
      some (((NewMemoryCache 0).Set 3155760000000000000 "example.com."
        (some (exampleMsg 3 []))).1) ∧
    (∃ last1, ((NewMemoryCache 0).Set 3155760000000000000 "example.com."
        (some (exampleMsg 3 []))).1.Backend.lookup (toLower "Example.com.") =
      some { Msg := some (exampleMsg 3 []), LastUpdateTime := last1 })) :=
  ⟨((no_answer_never_expires ((NewMemoryCache 0).Set 0 "example.com."
        (some (exampleMsg 3 []))).1 "Example.com." (exampleMsg 3 []) 0 (by decide)
        (by decide)).1 3155760000000000000).1,
    rfl,
    (no_answer_never_expires ((NewMemoryCache 0).Set 0 "example.com."
        (some (exampleMsg 3 []))).1 "Example.com." (exampleMsg 3 []) 0 (by decide)
        (by decide)).2.2
      [Op.Sweep 3155760000000000000, Op.Get 3155760000000000000 "example.com."] _ rfl
      (by decide)⟩

theorem ageAnswers_isSome_of_le (d : Nat) : ∀ l : List RR, (∀ rr ∈ l, d ≤ rr.Hdr.Ttl) →
    ∃ aged, ageAnswers d l = some aged
  | [], _ => ⟨[], rfl⟩
  | rr :: l, h => by
    obtain ⟨aged, ha⟩ := ageAnswers_isSome_of_le d l
      (fun x hx => h x (List.mem_cons_of_mem _ hx))
    have h1 : ¬ d > rr.Hdr.Ttl := by
      have := h rr (List.mem_cons_self _ _)
      omega
    refine ⟨{ rr with Hdr := { rr.Hdr with Ttl := subU32 rr.Hdr.Ttl d } } :: aged, ?_⟩
    simp only [ageAnswers, if_neg h1, ha]

theorem ageAnswers_eq_none_iff (d : Nat) (l : List RR) :
    ageAnswers d l = none ↔ ∃ rr ∈ l, d > rr.Hdr.Ttl := by
  constructor
  · intro h
    by_contra hc
    obtain ⟨aged, ha⟩ := ageAnswers_isSome_of_le d l (fun rr hr => by
      by_contra hlt
      exact hc ⟨rr, hr, by omega⟩)
    rw [ha] at h
    cases h
  · exact ageAnswers_eq_none d l

theorem expiredAt_iff (wall : Int) (msg : Msg) (last : Int) :
    expiredAt wall { Msg := some msg, LastUpdateTime := last } = true ↔
      ∃ rr ∈ msg.Answer, rr.Hdr.Ttl < elapsedSince (nowTruncated wall) last := by
  simp [expiredAt, List.any_eq_true]

theorem Get_expired_iff (c : MemoryCache) (wall : Int) (key : String) (mesg : Mesg)
    (hl : c.Backend.lookup (toLower key) = some mesg) :
    (c.Get wall key).2 = (none, some (CacheError.KeyExpired (toLower key))) ↔
      expiredAt wall mesg = true := by
  rcases mesg with ⟨m, last⟩
  cases m with
  | none =>
    rw [Get_of_nil c wall key last hl]
    simp [expiredAt]
  | some msg =>
    rw [expiredAt_iff]
    cases ha : ageAnswers (elapsedSince (nowTruncated wall) last) msg.Answer with
    | none =>
      rw [Get_of_expired c wall key msg last hl ha]
      have := (ageAnswers_eq_none_iff _ _).mp ha
      simp only [true_iff]
      exact this
    | some aged =>
      rw [Get_of_aged c wall key msg last aged hl ha]
      constructor
      · intro h; simp at h
      · intro h
        rw [(ageAnswers_eq_none_iff _ _).mpr h] at ha
        cases ha

/-- C17, as stated, fails. An entry whose record has TTL `2^32 - 1`, last updated at
0 s, is swept at `2^32` s: its TTL is smaller than the whole seconds elapsed, yet the
sweep leaves it, because the elapsed seconds are compared after their conversion to
`uint32`, which no value exceeding that TTL survives. -/
theorem sweep_keeps_entry_after_ttl :
    ((NewMemoryCache 0).Set 0 "example.com." (some (exampleMsg 0 [4294967295]))).1.Backend.lookup
        "example.com." =
      some { Msg := some (exampleMsg 0 [4294967295]), LastUpdateTime := 0 } ∧
    (4294967295 : Int) < secondsBetween 0 4294967296000000000 ∧
    (((NewMemoryCache 0).Set 0 "example.com." (some (exampleMsg 0 [4294967295]))).1.runTick
        4294967296000000000).map (fun c1 => c1.Exists "example.com.") = some true := by
  decide

/-- C17, amended. One sweep over a store whose entries all have a payload runs to
its end and removes exactly the entries that have an answer record with
`Ttl < elapsed`, `elapsed` being the `uint32` the sweep computes from the entry's
`LastUpdateTime` and the truncated clock; these are the entries on which `Get` at
that clock reading returns `KeyExpired`, and, when the whole seconds elapsed lie in
`0 .. 2^32 - 1`, the entries with a record TTL smaller than those seconds. Every
other entry is left as it was, `LastUpdateTime` and TTLs included, and no entry
appears. -/
theorem sweep_removes_expired (c : MemoryCache) (wall : Int)
    (hnn : ∀ e ∈ c.Backend.entries, e.2.Msg ≠ none) :
    ∃ c1, c.runTick wall = some c1 ∧ c1.Maxcount = c.Maxcount ∧
      (∀ k mesg, c.Backend.lookup k = some mesg → expiredAt wall mesg = true →
        c1.Backend.lookup k = none) ∧
      (∀ k mesg, c.Backend.lookup k = some mesg → expiredAt wall mesg = false →
        c1.Backend.lookup k = some mesg) ∧
      (∀ k, c.Backend.lookup k = none → c1.Backend.lookup k = none) ∧
      (∀ k msg last,
        c.Backend.lookup k = some { Msg := some msg, LastUpdateTime := last } →
        (expiredAt wall { Msg := some msg, LastUpdateTime := last } = true ↔
          ∃ rr ∈ msg.Answer, rr.Hdr.Ttl < elapsedSince (nowTruncated wall) last)) ∧
      (∀ key mesg, c.Backend.lookup (toLower key) = some mesg →
        (expiredAt wall mesg = true ↔
          (c.Get wall key).2 = (none, some (CacheError.KeyExpired (toLower key))))) ∧
      (∀ k msg wall0,
        c.Backend.lookup k = some { Msg := some msg, LastUpdateTime := nowTruncated wall0 } →
        0 ≤ secondsBetween wall0 wall → secondsBetween wall0 wall < 4294967296 →
        (expiredAt wall { Msg := some msg, LastUpdateTime := nowTruncated wall0 } = true ↔
          ∃ rr ∈ msg.Answer, (rr.Hdr.Ttl : Int) < secondsBetween wall0 wall)) := by
  obtain ⟨b1, hb⟩ := runEntries_isSome wall c.Backend.entries c.Backend hnn
  have hrun : c.runTick wall = some { c with Backend := b1 } := by
    unfold MemoryCache.runTick
    rw [hb]
  have hlk := fun k => (runTick_lookup c _ wall k hrun).2
  refine ⟨_, hrun, rfl, ?_, ?_, ?_, ?_, ?_, ?_⟩
  · intro k mesg hl hx
    rw [hlk k, hl]
    simp [hx]
  · intro k mesg hl hx
    rw [hlk k, hl]
    simp [hx]
  · intro k hl
    rw [hlk k, hl]
  · intro k msg last _
    exact expiredAt_iff wall msg last
  · intro key mesg hl
    exact (Get_expired_iff c wall key mesg hl).symm
  · intro k msg wall0 _ h0 h1
    rw [expiredAt_iff, elapsedSince_nowTruncated wall0 wall h0 h1]
    constructor
    · rintro ⟨rr, hr, hlt⟩
      exact ⟨rr, hr, by omega⟩
    · rintro ⟨rr, hr, hlt⟩
      exact ⟨rr, hr, by omega⟩

/-- Witness of the amended C17: of two entries swept at 3600 s the one with TTL 60 is
removed and the one with TTL 86400 stays. -/
theorem sweep_removes_expired_witness :
    ∃ c1, (((NewMemoryCache 0).Set 0 "a." (some (exampleMsg 0 [60]))).1.Set 0 "b."
        (some (exampleMsg 0 [86400]))).1.runTick 3600000000000 = some c1 ∧
      c1.Backend.lookup "a." = none ∧
      c1.Backend.lookup "b." =
        some { Msg := some (exampleMsg 0 [86400]), LastUpdateTime := 0 } := by
  obtain ⟨c1, h1, _, h3, h4, _⟩ := sweep_removes_expired
    (((NewMemoryCache 0).Set 0 "a." (some (exampleMsg 0 [60]))).1.Set 0 "b."
      (some (exampleMsg 0 [86400]))).1 3600000000000 (by decide)
  exact ⟨c1, h1,
    h3 "a." { Msg := some (exampleMsg 0 [60]), LastUpdateTime := 0 } (by decide) (by decide),
    h4 "b." { Msg := some (exampleMsg 0 [86400]), LastUpdateTime := 0 } (by decide)
      (by decide)⟩

theorem ageAnswers_some (d : Nat) : ∀ (l aged : List RR), ageAnswers d l = some aged →
    (∀ rr ∈ l, rr.Hdr.Ttl < 4294967296) →
    (∀ rr ∈ l, d ≤ rr.Hdr.Ttl) ∧
    aged = l.map (fun rr => { rr with Hdr := { rr.Hdr with Ttl := rr.Hdr.Ttl - d } }) ∧
    List.Forall₂ (fun old new : RR => new.Hdr.Ttl + d = old.Hdr.Ttl) l aged
  | [], aged, h, _ => by
    simp only [ageAnswers, Option.some.injEq] at h
    subst h
    exact ⟨fun rr hr => by simp at hr, rfl, List.Forall₂.nil⟩
  | rr :: l, aged, h, hwf => by
    simp only [ageAnswers] at h
    split at h
    · cases h
    · rename_i hle
      split at h
      · cases h
      · rename_i aged1 ha
        simp only [Option.some.injEq] at h
        subst h
        obtain ⟨i1, i2, i3⟩ := ageAnswers_some d l aged1 ha
          (fun x hx => hwf x (List.mem_cons_of_mem _ hx))
        have hr := hwf rr (List.mem_cons_self _ _)
        have hsub : subU32 rr.Hdr.Ttl d = rr.Hdr.Ttl - d :=
          subU32_eq _ _ (by omega) hr
        refine ⟨?_, ?_, ?_⟩
        · intro x hx
          rcases List.mem_cons.mp hx with hx | hx
          · subst hx; omega
          · exact i1 x hx
        · rw [hsub, i2]; rfl
        · refine List.Forall₂.cons ?_ i3
          show subU32 rr.Hdr.Ttl d + d = rr.Hdr.Ttl
          rw [hsub]; omega

/-- C16. No TTL wraparound and inclusive boundary. Whenever `Get` on an entry that
holds `msg` returns a message, with `e` the elapsed seconds it computed, every answer
record had `e <= Ttl`, the returned records are those of `msg` in order, each with
`new Ttl + e = old Ttl` as natural numbers (no wraparound modulo `2^32`, the new TTL
not above the old one), and nothing else of the message differs. The expiry test is
strict: a `Get` exactly `T` seconds after the insertion of a message whose smallest
record TTL is `T` returns no error, and the records that had TTL `T` come back with
TTL 0. -/
theorem get_no_wraparound :
    (∀ (c : MemoryCache) (wall : Int) (key : String) (msg m1 : Msg) (last : Int),
      c.Backend.lookup (toLower key) = some { Msg := some msg, LastUpdateTime := last } →
      msg.wf → (c.Get wall key).2 = (some m1, none) →
      (∀ rr ∈ msg.Answer, elapsedSince (nowTruncated wall) last ≤ rr.Hdr.Ttl) ∧
      List.Forall₂
        (fun old new : RR => new.Hdr.Ttl + elapsedSince (nowTruncated wall) last = old.Hdr.Ttl)
        msg.Answer m1.Answer ∧
      m1 = msg.aged (elapsedSince (nowTruncated wall) last)) ∧
    (∀ (c : MemoryCache) (wall0 wall : Int) (key : String) (msg : Msg) (T : Nat),
      msg.wf → (c.Set wall0 key (some msg)).2 = none →
      (∃ rr ∈ msg.Answer, rr.Hdr.Ttl = T) → (∀ rr ∈ msg.Answer, T ≤ rr.Hdr.Ttl) →
      secondsBetween wall0 wall = T →
      ((c.Set wall0 key (some msg)).1.Get wall key).2 = (some (msg.aged T), none) ∧
      (∃ rr ∈ (msg.aged T).Answer, rr.Hdr.Ttl = 0)) := by
  constructor
  · intro c wall key msg m1 last hl hwf hget
    cases ha : ageAnswers (elapsedSince (nowTruncated wall) last) msg.Answer with
    | none =>
      rw [Get_of_expired c wall key msg last hl ha] at hget
      simp at hget
    | some aged =>
      rw [Get_of_aged c wall key msg last aged hl ha] at hget
      simp only [Prod.mk.injEq, Option.some.injEq, and_true] at hget
      obtain ⟨i1, i2, i3⟩ := ageAnswers_some _ _ _ ha hwf
      subst hget
      exact ⟨i1, i3, by rw [i2]; rfl⟩
  · intro c wall0 wall key msg T hwf hset hT hmin hsec
    have hl0 : (c.Set wall0 key (some msg)).1.Backend.lookup (toLower key) =
        some { Msg := some (msg.aged (secondsBetween wall0 wall0).toNat),
               LastUpdateTime := nowTruncated wall0 } := by
      rw [Set_lookup_self c wall0 key (some msg) hset, secondsBetween_self]
      simp [aged_zero]
    have hle : nowTruncated wall0 ≤ nowTruncated wall := by
      have := secondsBetween_mul wall0 wall
      omega
    have h := (Get_aged_step _ key msg wall0 wall0 wall hwf hl0 (le_refl _) hle
      (fun rr hr => by rw [hsec]; exact Int.ofNat_le.mpr (hmin rr hr))).1
    rw [h, hsec]
    refine ⟨rfl, ?_⟩
    obtain ⟨rr, hr, hrT⟩ := hT
    refine ⟨{ rr with Hdr := { rr.Hdr with Ttl := rr.Hdr.Ttl - T } }, ?_, ?_⟩
    · rw [aged_answer]
      exact List.mem_map_of_mem _ hr
    · show rr.Hdr.Ttl - T = 0
      omega

/-- Witness of C16: TTL 60 read exactly 60 s after insertion comes back as TTL 0. -/
theorem get_no_wraparound_witness :
    (((NewMemoryCache 0).Set 0 "example.com." (some (exampleMsg 0 [60, 90]))).1.Get
        60000000000 "example.com.").2 = (some ((exampleMsg 0 [60, 90]).aged 60), none) ∧
    (exampleMsg 0 [60, 90]).aged 60 = exampleMsg 0 [0, 30] ∧
    List.Forall₂ (fun old new : RR => new.Hdr.Ttl + elapsedSince (nowTruncated 60000000000) 0 =
        old.Hdr.Ttl) (exampleMsg 0 [60, 90]).Answer (exampleMsg 0 [0, 30]).Answer :=
  ⟨(get_no_wraparound.2 (NewMemoryCache 0) 0 60000000000 "example.com."
      (exampleMsg 0 [60, 90]) 60 (by decide) (by decide) (by decide) (by decide)
      (by decide)).1,
    by decide,
    (get_no_wraparound.1 ((NewMemoryCache 0).Set 0 "example.com."
      (some (exampleMsg 0 [60, 90]))).1 60000000000 "example.com." (exampleMsg 0 [60, 90])
      (exampleMsg 0 [0, 30]) 0 (by decide) (by decide) (by decide)).2.1⟩

/-- C18, as stated, fails. A record of TTL 60 is set at 0.5 s and polled at 0.9 s and
1.3 s, the calls 0.4 s apart: the second poll falls in the next truncated second,
sees one second elapsed and returns TTL 59. Polling does not stop the aging. -/
theorem polling_does_not_freeze_aging :
    ((NewMemoryCache 0).Set 500000000 "example.com." (some (exampleMsg 0 [60]))).1.getResults
        "example.com." [Op.Get 900000000 "example.com.", Op.Get 1300000000 "example.com."] =
      [(some (exampleMsg 0 [60]), none), (some (exampleMsg 0 [59]), none)] ∧
    elapsedSince (nowTruncated 1300000000) (nowTruncated 900000000) = 1 := by
  decide

theorem nonDecreasingFrom_of_all_eq (t : Int) : ∀ l : List Int, (∀ x ∈ l, x = t) →
    nonDecreasingFrom t l
  | [], _ => trivial
  | x :: xs, h => by
    have hx := h x (List.mem_cons_self _ _)
    subst hx
    exact ⟨le_refl _, nonDecreasingFrom_of_all_eq x xs
      (fun y hy => h y (List.mem_cons_of_mem _ hy))⟩

/-- C18, amended. Polling within one second leaves the TTLs: after a `Set` of `msg`
on `key` that returned no error, let operations run of which those touching the key
are `Get`s on it, every one at a clock reading in the truncated second of the `Set`.
Then each of these `Get`s sees no second elapsed and returns `msg` with the TTLs as
inserted, however many they are. -/
theorem polling_within_second_keeps_ttl (c : MemoryCache) (wall0 : Int) (key : String)
    (msg : Msg) (ops : List Op)
    (hwf : msg.wf)
    (hset : (c.Set wall0 key (some msg)).2 = none)
    (hops : ∀ op ∈ ops, op.touches key = true → op.isGetOn key = true)
    (hsame : ∀ w ∈ getWalls key ops, nowTruncated w = nowTruncated wall0) :
    (c.Set wall0 key (some msg)).1.getResults key ops =
      (getWalls key ops).map (fun _ => (some msg, none)) ∧
    (∀ w ∈ getWalls key ops, elapsedSince (nowTruncated w) (nowTruncated wall0) = 0) := by
  have hz : ∀ w ∈ getWalls key ops, secondsBetween wall0 w = 0 := by
    intro w hw
    have h1 := secondsBetween_mul wall0 w
    have h2 := hsame w hw
    omega
  have hl0 : (c.Set wall0 key (some msg)).1.Backend.lookup (toLower key) =
      some { Msg := some (msg.aged (secondsBetween wall0 wall0).toNat),
             LastUpdateTime := nowTruncated wall0 } := by
    rw [Set_lookup_self c wall0 key (some msg) hset, secondsBetween_self]
    simp [aged_zero]
  have h := getResults_aged key msg wall0 hwf ops _ wall0 hl0 (le_refl _) hops
    (nonDecreasingFrom_of_all_eq _ _ (fun x hx => by
      obtain ⟨w, hw, rfl⟩ := List.mem_map.mp hx
      exact hsame w hw))
    (fun w hw rr _ => by rw [hz w hw]; exact Int.ofNat_nonneg _)
  constructor
  · rw [h]
    apply List.map_congr_left
    intro w hw
    rw [hz w hw]
    simp [aged_zero]
  · intro w hw
    rw [elapsedSince_nowTruncated wall0 w (by rw [hz w hw]) (by rw [hz w hw]; decide), hz w hw]
    rfl

/-- Witness of the amended C18: three polls within the second of the `Set`. -/
theorem polling_within_second_keeps_ttl_witness :
    ((NewMemoryCache 0).Set 5000000000 "example.com." (some (exampleMsg 0 [60]))).1.getResults
        "example.com."
        [Op.Get 5100000000 "example.com.", Op.Get 5500000000 "example.com.",
         Op.Get 5999999999 "example.com."] =
      (getWalls "example.com."
        [Op.Get 5100000000 "example.com.", Op.Get 5500000000 "example.com.",
         Op.Get 5999999999 "example.com."]).map (fun _ => (some (exampleMsg 0 [60]), none)) :=
  (polling_within_second_keeps_ttl (NewMemoryCache 0) 5000000000 "example.com."
    (exampleMsg 0 [60]) _ (by decide) (by decide) (by decide) (by decide)).1

/-! ## The claims on serving a query and on construction -/

theorem exchangeLoop_no_release (env : Env) (w : ResponseWriter) (m req : Msg) :
    ∀ (servers : List String) (n : Nat),
      (exchangeLoop env w m req n servers).1.count Event.Release = 0
  | [], _ => by simp [exchangeLoop]
  | server :: rest, n => by
    cases hx : env.Exchange n req server with
    | ok resp => simp [exchangeLoop, hx]
    | error err =>
      have ih := exchangeLoop_no_release env w m req rest (n + 1)
      simp only [exchangeLoop, hx]
      rw [List.count_cons, ih]
      simp

theorem WriteMsg_releases_once (env : Env) (w : ResponseWriter) (m : Msg) :
    (w.WriteMsg env m).1.count Event.Release = 1 ∧
    (w.WriteMsg env m).1.getLast? = some Event.Release := by
  unfold ResponseWriter.WriteMsg
  refine ⟨?_, by simp⟩
  simp only [List.count_append]
  have h0 : ([Event.Write m] : List Event).count Event.Release = 0 := by simp
  have h1 : ([Event.Release] : List Event).count Event.Release = 1 := by simp
  rw [h1]
  split
  · rw [h0]
  · split
    · rw [h0]
    · split
      · rw [h0]
      · rw [exchangeLoop_no_release]

theorem count_map_next (evs : List Event) :
    (evs.map ServeEvent.Next).count (ServeEvent.Next Event.Release) =
      evs.count Event.Release ∧
    (evs.map ServeEvent.Next).count ServeEvent.Acquire = 0 := by
  induction evs with
  | nil => simp
  | cons e rest ih =>
    simp only [List.map_cons, List.count_cons, ih.1, ih.2]
    constructor
    · congr 1
      by_cases h : e = Event.Release
      · simp [h]
      · simp [h]
    · simp

theorem nextWrites_counts (rw : ResponseWriter) : ∀ next : List (Env × Msg),
    (nextWrites rw next).count (ServeEvent.Next Event.Release) = next.length ∧
    (nextWrites rw next).count ServeEvent.Acquire = 0
  | [] => by simp [nextWrites]
  | (env, m) :: rest => by
    have ih := nextWrites_counts rw rest
    have h1 := count_map_next (rw.WriteMsg env m).1
    have h2 := (WriteMsg_releases_once env rw m).1
    refine ⟨?_, ?_⟩
    · simp only [nextWrites, List.count_append, List.length_cons]
      rw [ih.1, h1.1, h2]
      omega
    · simp only [nextWrites, List.count_append]
      rw [ih.2, h1.2]

/-- C14, as stated, fails. When the next stage writes no response the wrapper taken
from the pool is never put back, and when it writes two responses the wrapper is put
back twice. -/
theorem serveDNS_release_not_once :
    acquires ((Failover.mk ["192.0.2.53:53"]).ServeDNS (fun _ => none) []) = 1 ∧
    releases ((Failover.mk ["192.0.2.53:53"]).ServeDNS (fun _ => none) []) = 0 ∧
    acquires ((Failover.mk ["192.0.2.53:53"]).ServeDNS (fun _ => none)
      [(exampleEnv, exampleMsg 0 [60]), (exampleEnv, exampleMsg 2 [])]) = 1 ∧
    releases ((Failover.mk ["192.0.2.53:53"]).ServeDNS (fun _ => none)
      [(exampleEnv, exampleMsg 0 [60]), (exampleEnv, exampleMsg 2 [])]) = 2 := by
  decide

/-- C14, amended. Every call of `WriteMsg` puts the wrapper into the pool exactly
once, as its last action, whichever branch it takes (passthrough, substitution or
exhaustion). `ServeDNS` takes the wrapper from the pool once and puts it back once
for each response the next stage writes through the installed writer: exactly once
when the next stage writes exactly one response. -/
theorem serveDNS_release_per_write (f : Failover) (inner : Msg → Option String)
    (next : List (Env × Msg)) :
    (∀ (env : Env) (w : ResponseWriter) (m : Msg),
      (w.WriteMsg env m).1.count Event.Release = 1 ∧
      (w.WriteMsg env m).1.getLast? = some Event.Release) ∧
    acquires (f.ServeDNS inner next) = 1 ∧
    releases (f.ServeDNS inner next) = next.length ∧
    (next.length = 1 → releases (f.ServeDNS inner next) = 1) := by
  have h := nextWrites_counts { Inner := inner, f := f } next
  have ha : acquires (f.ServeDNS inner next) = 1 := by
    unfold acquires Failover.ServeDNS
    simp only [List.count_append, h.2]
    decide
  have hr : releases (f.ServeDNS inner next) = next.length := by
    unfold releases Failover.ServeDNS
    simp only [List.count_append, h.1]
    have e1 : ([ServeEvent.Acquire, ServeEvent.Install] : List ServeEvent).count
        (ServeEvent.Next Event.Release) = 0 := by decide
    have e2 : ([ServeEvent.Restore] : List ServeEvent).count
        (ServeEvent.Next Event.Release) = 0 := by decide
    rw [e1, e2]
    omega
  exact ⟨fun env w m => WriteMsg_releases_once env w m, ha, hr, fun h1 => by rw [hr, h1]⟩

/-- Witness of the amended C14: one response, answered by the fallback server. -/
theorem serveDNS_release_per_write_witness :
    releases ((Failover.mk ["192.0.2.53:53"]).ServeDNS (fun _ => none)
      [(exampleEnv, exampleMsg 2 [])]) = 1 :=
  (serveDNS_release_per_write (Failover.mk ["192.0.2.53:53"]) (fun _ => none)
    [(exampleEnv, exampleMsg 2 [])]).2.2.2 rfl

theorem newLoop_eq (ParseIP : String → Option (List Nat)) : ∀ (cfg acc : List String),
    newLoop ParseIP cfg acc = acc ++ cfg.filter (keepServer ParseIP)
  | [], acc => by simp [newLoop]
  | s :: rest, acc => by
    by_cases h : keepServer ParseIP s = true
    · simp only [newLoop, if_pos h, newLoop_eq ParseIP rest, List.filter_cons_of_pos h,
        List.append_assoc, List.singleton_append]
    · simp only [newLoop, if_neg h, newLoop_eq ParseIP rest, List.filter_cons_of_neg h]

theorem keepServer_eq (ParseIP : String → Option (List Nat))
    (h16 : ∀ host ip, ParseIP host = some ip → ip.length = 16) (s : String) :
    keepServer ParseIP s = (ParseIP (SplitHostPort s).1).isSome := by
  unfold keepServer
  dsimp only
  cases hp : ParseIP (SplitHostPort s).1 with
  | none => rfl
  | some ip =>
    have hl := h16 _ ip hp
    have h : (To16 ip).isSome = true := by
      unfold To16
      rw [if_neg (by omega), if_pos hl]
      rfl
    simp [h]

/-- C15, as stated, fails. The string `192.0.2.53:notaport` splits into the address
`192.0.2.53` and the port text `notaport`; it is no valid endpoint, yet `New` keeps
it: only the host part is examined. -/
theorem new_keeps_invalid_port :
    SplitHostPort "192.0.2.53:notaport" = ("192.0.2.53", "notaport", none) ∧
    validEndpoint exampleParseIP "192.0.2.53:notaport" = false ∧
    (New exampleParseIP ["192.0.2.53:notaport"]).servers = ["192.0.2.53:notaport"] := by
  decide

/-- C15, amended. `New` is a total, order-preserving filter on the host part: for
every list of configured strings it returns a handler whose server list is the
sub-list, in the original order and with the original strings, of the entries whose
host part, as `net.SplitHostPort` splits it, `net.ParseIP` parses as an IPv4 or IPv6
address; the port part is not examined. Every valid endpoint is kept, and every
entry whose host part is no address is omitted. -/
theorem new_filters_by_address (ParseIP : String → Option (List Nat))
    (h16 : ∀ host ip, ParseIP host = some ip → ip.length = 16) (cfg : List String) :
    (New ParseIP cfg).servers =
      cfg.filter (fun s => (ParseIP (SplitHostPort s).1).isSome) ∧
    (New ParseIP cfg).servers.Sublist cfg ∧
    (∀ s, s ∈ (New ParseIP cfg).servers ↔
      (s ∈ cfg ∧ (ParseIP (SplitHostPort s).1).isSome = true)) ∧
    (∀ s ∈ cfg, validEndpoint ParseIP s = true → s ∈ (New ParseIP cfg).servers) := by
  have hf : keepServer ParseIP = fun s => (ParseIP (SplitHostPort s).1).isSome :=
    funext (keepServer_eq ParseIP h16)
  have h1 : (New ParseIP cfg).servers =
      cfg.filter (fun s => (ParseIP (SplitHostPort s).1).isSome) := by
    unfold New
    simp only [newLoop_eq, List.nil_append, hf]
  have h3 : ∀ s, s ∈ (New ParseIP cfg).servers ↔
      (s ∈ cfg ∧ (ParseIP (SplitHostPort s).1).isSome = true) := by
    intro s
    rw [h1, List.mem_filter]
  refine ⟨h1, by rw [h1]; exact List.filter_sublist _, h3, ?_⟩
  intro s hs hv
  rw [h3]
  refine ⟨hs, ?_⟩
  unfold validEndpoint at hv
  simp only [Bool.and_eq_true] at hv
  exact hv.1.2

theorem exampleParseIP_length (host : String) (ip : List Nat)
    (h : exampleParseIP host = some ip) : ip.length = 16 := by
  unfold exampleParseIP at h
  split at h
  · cases h; rfl
  · split at h
    · cases h; rfl
    · cases h

/-- Witness of the amended C15: of five configured strings the three with an
address as host are kept, in order. -/
theorem new_filters_by_address_witness :
    (New exampleParseIP
      ["192.0.2.53:53", "dns.example:53", "[2001:db8::53]:53", "192.0.2.53",
       "192.0.2.53:notaport"]).servers =
      ["192.0.2.53:53", "dns.example:53", "[2001:db8::53]:53", "192.0.2.53",
       "192.0.2.53:notaport"].filter
        (fun s => (exampleParseIP (SplitHostPort s).1).isSome) ∧
    (New exampleParseIP
      ["192.0.2.53:53", "dns.example:53", "[2001:db8::53]:53", "192.0.2.53",
       "192.0.2.53:notaport"]).servers =
      ["192.0.2.53:53", "[2001:db8::53]:53", "192.0.2.53:notaport"] :=
  ⟨(new_filters_by_address exampleParseIP exampleParseIP_length _).1, by decide⟩

/-! ## The claim on concurrent `Set`s -/

theorem Set_eq_check_store (c : MemoryCache) (wall : Int) (key : String) (msg : Option Msg) :
    c.Set wall key msg = c.SetStore wall key msg (c.SetCheck key) := by
  unfold MemoryCache.Set MemoryCache.SetStore MemoryCache.SetCheck
  rfl

theorem runSchedule_single (c : MemoryCache) (wall : Int) (key : String) (msg : Option Msg) :
    (runSchedule c [{ wall := wall, key := key, msg := msg, pc := SetPc.start }] [0, 0]).1 =
      (c.Set wall key msg).1 := by
  rw [Set_eq_check_store]
  rfl

/-- C19, the code at the failing schedule. On the empty cache with `Maxcount = 1`
two units call `Set` with the new keys `a.` and `b.`. Each makes its test while the
map is still empty, then each stores: both calls return no error and the cache
holds two entries. Run one after the other, the second call returns `CacheIsFull`
and the cache holds one entry. -/
theorem concurrent_sets_exceed_capacity :
    (runSchedule (NewMemoryCache 1)
      [{ wall := 0, key := "a.", msg := some (exampleMsg 0 [60]), pc := SetPc.start },
       { wall := 0, key := "b.", msg := some (exampleMsg 0 [60]), pc := SetPc.start }]
      [0, 1, 0, 1]).1.Length = 2 ∧
    (runSchedule (NewMemoryCache 1)
      [{ wall := 0, key := "a.", msg := some (exampleMsg 0 [60]), pc := SetPc.start },
       { wall := 0, key := "b.", msg := some (exampleMsg 0 [60]), pc := SetPc.start }]
      [0, 1, 0, 1]).2.map (fun u => u.pc) = [SetPc.returned none, SetPc.returned none] ∧
    (runSchedule (NewMemoryCache 1)
      [{ wall := 0, key := "a.", msg := some (exampleMsg 0 [60]), pc := SetPc.start },
       { wall := 0, key := "b.", msg := some (exampleMsg 0 [60]), pc := SetPc.start }]
      [0, 0, 1, 1]).1.Length = 1 ∧
    (runSchedule (NewMemoryCache 1)
      [{ wall := 0, key := "a.", msg := some (exampleMsg 0 [60]), pc := SetPc.start },
       { wall := 0, key := "b.", msg := some (exampleMsg 0 [60]), pc := SetPc.start }]
      [0, 0, 1, 1]).2.map (fun u => u.pc) =
      [SetPc.returned none, SetPc.returned (some CacheError.CacheIsFull)] := by
  decide

end Sdns
